import Mathlib

/-!
Verification of the Xiangqi (Chinese chess) engine: a shallow embedding of the
game logic (`XiangqiLogic` in `script.js` / the shared logic module), the
AI worker's alpha-beta `minimax`, and the UI controller's `attemptMove`.

Boards are total functions from integer coordinates to optional pieces (the
JavaScript array reads out of bounds yield `undefined`, i.e. `none`); engine
scores are `WithBot (WithTop ℤ)`, whose bottom and top play the role of the
JavaScript `-Infinity` and `Infinity`.
-/

namespace Xiangqi

/-- A side, `'red'` or `'black'` in the source. -/
inductive Side where
  | red
  | black
deriving DecidableEq

/-- `myColor === 'red' ? 'black' : 'red'` -/
def Side.opp : Side → Side
  | .red => .black
  | .black => .red

/-- The seven piece kinds dispatched on by `isValidMove`. -/
inductive PieceType where
  | king
  | advisor
  | elephant
  | horse
  | rook
  | cannon
  | pawn
deriving DecidableEq

/-- A piece object: `{ color, type, text, row, col, key }` as built by `placePiece`. -/
structure Piece where
  color : Side
  type : PieceType
  text : String
  row : Int
  col : Int
  key : String
deriving DecidableEq

/-- The board: a 10x9 grid addressed as `board[row][col]`; cells outside the
grid read as `none` (JavaScript `undefined`). -/
def Board := Int → Int → Option Piece

/-- Writing one cell of the board (`this.board[r][c] = v`). -/
def setCell (b : Board) (r c : Int) (v : Option Piece) : Board :=
  fun r' c' => if r' = r ∧ c' = c then v else b r' c'

/-- A board with no pieces. -/
def emptyBoard : Board := fun _ _ => none

/-- The integers in `[lo, hi)`, in increasing order: the index range of a
`for (let i = lo; i < hi; i++)` loop. -/
def intRange (lo hi : Int) : List Int :=
  (List.range (hi - lo).toNat).map (fun (i : Nat) => lo + (i : Int))

/-- All 90 cells `(r, c)` in the row-major order of the nested
`for (let r = 0; r < 10; r++) for (let c = 0; c < 9; c++)` loops. -/
def boardCells : List (Int × Int) :=
  (intRange 0 10).flatMap (fun r => (intRange 0 9).map (fun c => (r, c)))

/-- The cells scanned by `kingsFacing`: rows 0-9, columns 3-5, in scan order. -/
def scanCells : List (Int × Int) :=
  (intRange 0 10).flatMap (fun r => (intRange 3 6).map (fun c => (r, c)))

/-- `PIECE_VALUES` of `script.js`. -/
def pieceValue : PieceType → Int
  | .king => 10000
  | .rook => 900
  | .horse => 400
  | .cannon => 450
  | .elephant => 200
  | .advisor => 200
  | .pawn => 100

/-- `isInPalace(r, c, color)`. -/
def isInPalace (r c : Int) (color : Side) : Bool :=
  if c < 3 ∨ c > 5 then false
  else match color with
    | .red => decide (r ≥ 7 ∧ r ≤ 9)
    | .black => decide (r ≥ 0 ∧ r ≤ 2)

/-- `countObstacles(r1, c1, r2, c2)`: occupied cells strictly between two
aligned points; 0 when the points are not aligned. -/
def countObstacles (b : Board) (r1 c1 r2 c2 : Int) : Nat :=
  if r1 = r2 then
    (intRange (min c1 c2 + 1) (max c1 c2)).countP (fun c => (b r1 c).isSome)
  else if c1 = c2 then
    (intRange (min r1 r2 + 1) (max r1 r2)).countP (fun r => (b r c1).isSome)
  else 0

/-- The elephant's eye: `(piece.row + dr / 2, piece.col + dc / 2)`. -/
def elephantEye (p : Piece) (targetR targetC : Int) : Int × Int :=
  (p.row + (targetR - p.row) / 2, p.col + (targetC - p.col) / 2)

/-- The horse's leg: the orthogonal cell adjacent to the source along the long
axis, `(piece.row + (dr > 0 ? 1 : -1), piece.col)` when `absDr === 2` and
`(piece.row, piece.col + (dc > 0 ? 1 : -1))` otherwise. -/
def horseLeg (p : Piece) (targetR targetC : Int) : Int × Int :=
  if (targetR - p.row).natAbs = 2 then
    (p.row + (if targetR - p.row > 0 then 1 else -1), p.col)
  else
    (p.row, p.col + (if targetC - p.col > 0 then 1 else -1))

/-- `target && target.color === piece.color`. -/
def hasSameColor : Option Piece → Side → Bool
  | some t, s => decide (t.color = s)
  | none, _ => false

/-- The per-kind `switch (piece.type)` body of `isValidMove`, after the
same-spot and same-color early returns. -/
def pieceRule (b : Board) (p : Piece) (targetR targetC : Int) : Bool :=
  let target := b targetR targetC
  let dr := targetR - p.row
  let dc := targetC - p.col
  let absDr := dr.natAbs
  let absDc := dc.natAbs
  match p.type with
  | .king =>
    if ¬((absDr = 1 ∧ absDc = 0) ∨ (absDr = 0 ∧ absDc = 1)) then false
    else isInPalace targetR targetC p.color
  | .advisor =>
    if absDr ≠ 1 ∨ absDc ≠ 1 then false
    else isInPalace targetR targetC p.color
  | .elephant =>
    if absDr ≠ 2 ∨ absDc ≠ 2 then false
    else if p.color = Side.red ∧ targetR < 5 then false
    else if p.color = Side.black ∧ targetR > 4 then false
    else if (b (elephantEye p targetR targetC).1 (elephantEye p targetR targetC).2).isSome then false
    else true
  | .horse =>
    if ¬((absDr = 2 ∧ absDc = 1) ∨ (absDr = 1 ∧ absDc = 2)) then false
    else if (b (horseLeg p targetR targetC).1 (horseLeg p targetR targetC).2).isSome then false
    else true
  | .rook =>
    if absDr > 0 ∧ absDc > 0 then false
    else decide (countObstacles b p.row p.col targetR targetC = 0)
  | .cannon =>
    if absDr > 0 ∧ absDc > 0 then false
    else
      let obstacles := countObstacles b p.row p.col targetR targetC
      match target with
      | none => decide (obstacles = 0)
      | some _ => decide (obstacles = 1)
  | .pawn =>
    if absDr + absDc ≠ 1 then false
    else match p.color with
      | .red =>
        if targetR > p.row then false
        else if p.row ≥ 5 ∧ p.row = targetR then false
        else true
      | .black =>
        if targetR < p.row then false
        else if p.row ≤ 4 ∧ p.row = targetR then false
        else true

/-- `isValidMove(piece, targetR, targetC)`. -/
def isValidMove (b : Board) (p : Piece) (targetR targetC : Int) : Bool :=
  if p.row = targetR ∧ p.col = targetC then false
  else if hasSameColor (b targetR targetC) p.color then false
  else pieceRule b p targetR targetC

/-- One step of the `kingsFacing` scan: the loop body that records the
position of each king it sees, red in the first component, black in the
second. -/
def kingScanStep (b : Board) (s : Option (Int × Int) × Option (Int × Int))
    (rc : Int × Int) : Option (Int × Int) × Option (Int × Int) :=
  match b rc.1 rc.2 with
  | some p =>
    if p.type = PieceType.king then
      if p.color = Side.red then (some rc, s.2) else (s.1, some rc)
    else s
  | none => s

/-- `kingsFacing()`: scan rows 0-9, columns 3-5 for the two kings; true when
both were found in the same column with no obstacle between them. -/
def kingsFacing (b : Board) : Bool :=
  let scan := scanCells.foldl (kingScanStep b) (none, none)
  match scan.1, scan.2 with
  | some rK, some bK =>
    if rK.2 = bK.2 then decide (countObstacles b rK.1 rK.2 bK.1 bK.2 = 0)
    else false
  | _, _ => false

/-- `getPossibleDestinations(piece)`: the cheap geometric candidate list per
piece kind, filtered by board bounds only. -/
def getPossibleDestinations (p : Piece) : List (Int × Int) :=
  let r := p.row
  let c := p.col
  match p.type with
  | .king | .advisor =>
    (intRange (r - 1) (r + 2)).flatMap (fun i =>
      (intRange (c - 1) (c + 2)).flatMap (fun j =>
        if i ≥ 0 ∧ i < 10 ∧ j ≥ 0 ∧ j < 9 then [(i, j)] else []))
  | .elephant =>
    [(r - 2, c - 2), (r - 2, c + 2), (r + 2, c - 2), (r + 2, c + 2)].filter
      (fun d => decide (d.1 ≥ 0 ∧ d.1 < 10 ∧ d.2 ≥ 0 ∧ d.2 < 9))
  | .horse =>
    [(r - 2, c - 1), (r - 2, c + 1), (r + 2, c - 1), (r + 2, c + 1),
     (r - 1, c - 2), (r - 1, c + 2), (r + 1, c - 2), (r + 1, c + 2)].filter
      (fun d => decide (d.1 ≥ 0 ∧ d.1 < 10 ∧ d.2 ≥ 0 ∧ d.2 < 9))
  | .pawn =>
    [(r - 1, c), (r + 1, c), (r, c - 1), (r, c + 1)].filter
      (fun d => decide (d.1 ≥ 0 ∧ d.1 < 10 ∧ d.2 ≥ 0 ∧ d.2 < 9))
  | .rook | .cannon =>
    (intRange 0 10).filterMap (fun i => if i ≠ r then some (i, c) else none) ++
      (intRange 0 9).filterMap (fun j => if j ≠ c then some (r, j) else none)

/-- The tentative execution of a move on the board: detach the piece from its
source cell, attach it at the destination, update its coordinates. -/
def simulateMove (b : Board) (p : Piece) (targetR targetC : Int) : Board :=
  setCell (setCell b p.row p.col none) targetR targetC
    (some { p with row := targetR, col := targetC })

/-- The engine's score type: JavaScript numbers including `-Infinity` (`⊥`)
and `Infinity` (`⊤`). -/
abbrev Score := WithBot (WithTop Int)

/-- A finite score. -/
def finScore (n : Int) : Score := ((n : WithTop Int) : Score)

/-- A move object `{ from: {r, c}, to: {r, c}, score }`. -/
structure Move where
  fromR : Int
  fromC : Int
  toR : Int
  toC : Int
  score : Score
deriving DecidableEq

/-- The move-generation inner loop body of `generateLegalMoves`, for one
candidate destination of one piece: validate, tentatively execute, reject on
a flying-generals exposure, otherwise record the move with its capture
score. -/
def moveCandidate (b : Board) (p : Piece) (dest : Int × Int) : Option Move :=
  if isValidMove b p dest.1 dest.2 then
    let captured := b dest.1 dest.2
    if kingsFacing (simulateMove b p dest.1 dest.2) then none
    else
      some { fromR := p.row, fromC := p.col, toR := dest.1, toC := dest.2,
             score := finScore (match captured with
               | some cap => pieceValue cap.type
               | none => 0) }
  else none

/-- `generateLegalMoves(color)`: accepted moves over all own pieces and all
candidate destinations, sorted by `(a, b) => b.score - a.score` (descending
capture score). -/
def generateLegalMoves (b : Board) (color : Side) : List Move :=
  let moves := boardCells.flatMap (fun rc =>
    match b rc.1 rc.2 with
    | some p =>
      if p.color = color then (getPossibleDestinations p).filterMap (moveCandidate b p)
      else []
    | none => [])
  moves.mergeSort (fun m1 m2 => decide (m2.score ≤ m1.score))

/-- The make-move protocol of the worker's `minimax`: fetch the piece at the
move's source cell, empty the source, place the piece (with updated
coordinates) at the destination. -/
def applyMove (b : Board) (mv : Move) : Board :=
  match b mv.fromR mv.fromC with
  | some p => simulateMove b p mv.toR mv.toC
  | none => setCell (setCell b mv.fromR mv.fromC none) mv.toR mv.toC none

/-- The undo-move protocol: restore the moved piece's coordinates, put it back
on the source cell, put the captured occupant back on the destination cell.
`moved` is the piece object as it stands after the move (coordinates at the
destination). -/
def undoMove (b : Board) (moved : Piece) (fromR fromC toR toC : Int)
    (captured : Option Piece) : Board :=
  setCell (setCell b fromR fromC (some { moved with row := fromR, col := fromC }))
    toR toC captured

/-- `PST['pawn']` of `script.js`. -/
def pstPawn : List (List Int) :=
  [[0, 0, 0, 0, 0, 0, 0, 0, 0],
   [0, 3, 6, 9, 6, 9, 6, 3, 0],
   [18, 36, 54, 72, 81, 72, 54, 36, 18],
   [14, 26, 42, 60, 80, 60, 42, 26, 14],
   [10, 20, 30, 40, 50, 40, 30, 20, 10],
   [6, 12, 18, 18, 20, 18, 18, 12, 6],
   [0, 0, 0, 0, 0, 0, 0, 0, 0],
   [0, 0, 0, 0, 0, 0, 0, 0, 0],
   [0, 0, 0, 0, 0, 0, 0, 0, 0],
   [0, 0, 0, 0, 0, 0, 0, 0, 0]]

/-- `PST['rook']` of `script.js`. -/
def pstRook : List (List Int) :=
  [[10, 10, 10, 10, 10, 10, 10, 10, 10],
   [10, 20, 20, 20, 20, 20, 20, 20, 10],
   [5, 10, 20, 30, 30, 30, 20, 10, 5],
   [5, 10, 15, 20, 20, 20, 15, 10, 5],
   [5, 10, 15, 20, 20, 20, 15, 10, 5],
   [5, 10, 15, 20, 20, 20, 15, 10, 5],
   [5, 10, 20, 30, 30, 30, 20, 10, 5],
   [10, 20, 20, 20, 20, 20, 20, 20, 10],
   [0, 15, 10, 10, 10, 10, 10, 15, 0],
   [5, 15, 10, 10, 10, 10, 10, 15, 5]]

/-- `PST['horse']` of `script.js`. -/
def pstHorse : List (List Int) :=
  [[0, 0, 0, 0, 0, 0, 0, 0, 0],
   [0, 20, 40, 30, 20, 30, 40, 20, 0],
   [5, 20, 30, 40, 50, 40, 30, 20, 5],
   [5, 10, 15, 30, 20, 30, 15, 10, 5],
   [5, 10, 15, 20, 20, 20, 15, 10, 5],
   [5, 10, 15, 20, 20, 20, 15, 10, 5],
   [5, 20, 10, 40, 10, 40, 10, 20, 5],
   [5, 20, 10, 20, 10, 20, 10, 20, 5],
   [0, 5, 5, 5, 5, 5, 5, 5, 0],
   [0, -5, 0, 0, 0, 0, 0, -5, 0]]

/-- `PST['cannon']` of `script.js`. -/
def pstCannon : List (List Int) :=
  [[0, 0, 5, 10, 10, 10, 5, 0, 0],
   [0, 5, 10, 15, 20, 15, 10, 5, 0],
   [0, 5, 10, 20, 40, 20, 10, 5, 0],
   [0, 0, 5, 10, 20, 10, 5, 0, 0],
   [0, 5, 5, 10, 20, 10, 5, 5, 0],
   [-2, 5, 20, 5, 10, 5, 20, 5, -2],
   [0, 0, 5, 10, 15, 10, 5, 0, 0],
   [0, 0, 10, 20, 30, 20, 10, 0, 0],
   [0, 0, 0, 0, 0, 0, 0, 0, 0],
   [0, 0, 0, 0, 0, 0, 0, 0, 0]]

/-- The `PST` table: empty for king, advisor and elephant. -/
def pst : PieceType → List (List Int)
  | .pawn => pstPawn
  | .rook => pstRook
  | .horse => pstHorse
  | .cannon => pstCannon
  | .king => []
  | .advisor => []
  | .elephant => []

/-- The per-piece value inside `evaluateBoard`: base material value plus the
positional-table bonus, the table row mirrored (`9 - r`) for black. -/
def pieceVal (p : Piece) (r c : Int) : Int :=
  let base := pieceValue p.type
  let table := pst p.type
  if table.length > 0 then
    let lookupR : Int := if p.color = Side.black then 9 - r else r
    let rowVals := table.getD lookupR.toNat []
    base + rowVals.getD c.toNat 0
  else base

/-- `evaluateBoard(color)`: signed sum over all occupied cells, adding the
piece's value when it belongs to `color` and subtracting it otherwise. -/
def evaluateBoard (b : Board) (color : Side) : Int :=
  (boardCells.map (fun rc =>
    match b rc.1 rc.2 with
    | some p => if p.color = color then pieceVal p rc.1 rc.2 else -(pieceVal p rc.1 rc.2)
    | none => 0)).sum

/-- What a `minimax` call returns: either a best move object (whose `score`
field was set when it was recorded) or a bare `{ score }`. -/
structure SearchResult where
  move? : Option Move
  score : Score
deriving DecidableEq

/-- `return bestMove || { score: extremum }`. -/
def finishLoop (best : Option Move) (extremum : Score) : SearchResult :=
  match best with
  | some mv => { move? := some mv, score := mv.score }
  | none => { move? := none, score := extremum }

/-- The maximizing loop of `minimax`: make each move, recurse (`child` is the
depth-decremented recursive call, given the post-move board and the current
window), undo, keep the strictly best child, raise alpha, break once
`beta <= alpha`. -/
def maxLoop (child : Board → Score → Score → Score) (b : Board) :
    List Move → Score → Score → Score → Option Move → SearchResult
  | [], _alpha, _beta, maxEval, best => finishLoop best maxEval
  | mv :: rest, alpha, beta, maxEval, best =>
    let ev := child (applyMove b mv) alpha beta
    let st := if maxEval < ev then (ev, some { mv with score := ev }) else (maxEval, best)
    let alpha' := max alpha ev
    if beta ≤ alpha' then finishLoop st.2 st.1
    else maxLoop child b rest alpha' beta st.1 st.2

/-- The minimizing loop of `minimax`: dual of `maxLoop`, lowering beta. -/
def minLoop (child : Board → Score → Score → Score) (b : Board) :
    List Move → Score → Score → Score → Option Move → SearchResult
  | [], _alpha, _beta, minEval, best => finishLoop best minEval
  | mv :: rest, alpha, beta, minEval, best =>
    let ev := child (applyMove b mv) alpha beta
    let st := if ev < minEval then (ev, some { mv with score := ev }) else (minEval, best)
    let beta' := min beta ev
    if beta' ≤ alpha then finishLoop st.2 st.1
    else minLoop child b rest alpha beta' st.1 st.2

/-- The worker's `minimax(game, depth, alpha, beta, isMaximizing, myColor)`:
alpha-beta search over `generateLegalMoves`, evaluating at depth 0 and scoring
a move-less node with a fixed loss. -/
def minimax (b : Board) (depth : Nat) (alpha beta : Score) (isMaximizing : Bool)
    (myColor : Side) : SearchResult :=
  match depth with
  | 0 => { move? := none, score := finScore (evaluateBoard b myColor) }
  | d + 1 =>
    let possibleMoves := generateLegalMoves b (if isMaximizing then myColor else myColor.opp)
    if possibleMoves.isEmpty then
      { move? := none, score := finScore (if isMaximizing then -100000 else 100000) }
    else if isMaximizing then
      maxLoop (fun b' a β => (minimax b' d a β false myColor).score) b possibleMoves
        alpha beta ⊥ none
    else
      minLoop (fun b' a β => (minimax b' d a β true myColor).score) b possibleMoves
        alpha beta ⊤ none

/-- Modelled from the spec: the maximizing loop of the unpruned full minimax,
identical to `maxLoop` but with no window and no pruning break. -/
def fullMaxLoop (child : Board → Score) (b : Board) :
    List Move → Score → Option Move → SearchResult
  | [], maxEval, best => finishLoop best maxEval
  | mv :: rest, maxEval, best =>
    let ev := child (applyMove b mv)
    let st := if maxEval < ev then (ev, some { mv with score := ev }) else (maxEval, best)
    fullMaxLoop child b rest st.1 st.2

/-- Modelled from the spec: the minimizing loop of the unpruned full minimax. -/
def fullMinLoop (child : Board → Score) (b : Board) :
    List Move → Score → Option Move → SearchResult
  | [], minEval, best => finishLoop best minEval
  | mv :: rest, minEval, best =>
    let ev := child (applyMove b mv)
    let st := if ev < minEval then (ev, some { mv with score := ev }) else (minEval, best)
    fullMinLoop child b rest st.1 st.2

/-- Modelled from the spec: the unpruned full minimax over the identical move
ordering, leaf evaluation, loss scores and best-move tie-breaking as
`minimax`, with every sibling explored. -/
def fullMinimax (b : Board) (depth : Nat) (isMaximizing : Bool) (myColor : Side) :
    SearchResult :=
  match depth with
  | 0 => { move? := none, score := finScore (evaluateBoard b myColor) }
  | d + 1 =>
    let possibleMoves := generateLegalMoves b (if isMaximizing then myColor else myColor.opp)
    if possibleMoves.isEmpty then
      { move? := none, score := finScore (if isMaximizing then -100000 else 100000) }
    else if isMaximizing then
      fullMaxLoop (fun b' => (fullMinimax b' d false myColor).score) b possibleMoves ⊥ none
    else
      fullMinLoop (fun b' => (fullMinimax b' d true myColor).score) b possibleMoves ⊤ none

/-- The worker's `onmessage` iterative-deepening loop: search depth 1 up to
`maxDepth`, keeping the last result that carried a move; `none` is the posted
`{}` fallback. -/
def iterDeepening (b : Board) (turn : Side) (maxDepth : Nat) : Option SearchResult :=
  (List.range maxDepth).foldl
    (fun best d =>
      let move := minimax b (d + 1) ⊥ ⊤ true turn
      if move.move?.isSome then some move else best)
    none

/-- The board effect of `XiangqiApp.attemptMove`: validate, tentatively
execute, revert on a flying-generals exposure. The Boolean reports whether
the move was kept. -/
def attemptMove (b : Board) (p : Piece) (targetR targetC : Int) : Board × Bool :=
  if isValidMove b p targetR targetC then
    let originalPiece := b p.row p.col
    let targetContent := b targetR targetC
    let b2 := simulateMove b p targetR targetC
    if kingsFacing b2 then
      (setCell (setCell b2 p.row p.col originalPiece) targetR targetC targetContent, false)
    else (b2, true)
  else (b, false)

/-- Board coordinate consistency on the 10x9 grid: every piece record stored
in a cell carries that cell's coordinates (the invariant `placePiece`
establishes and every make/undo protocol preserves). -/
def Consistent (b : Board) : Prop :=
  ∀ rc ∈ boardCells, ∀ p : Piece, b rc.1 rc.2 = some p → p.row = rc.1 ∧ p.col = rc.2

instance (b : Board) (rc : Int × Int) :
    Decidable (∀ p : Piece, b rc.1 rc.2 = some p → p.row = rc.1 ∧ p.col = rc.2) :=
  match h : b rc.1 rc.2 with
  | none => isTrue (fun p hp => by simp [h] at hp)
  | some q =>
    decidable_of_iff (q.row = rc.1 ∧ q.col = rc.2)
      ⟨fun hq p hp => by rw [Option.some_inj] at hp; rw [← hp]; exact hq,
       fun hall => hall q rfl⟩

instance (b : Board) : Decidable (Consistent b) :=
  List.decidableBAll _ boardCells

/-- A red king in its palace, fixture for the move-generation witness. -/
def w1RedKing : Piece := { color := Side.red, type := PieceType.king, text := "K",
                           row := 9, col := 4, key := "w1rk" }

/-- A black king in its palace, fixture for the move-generation witness. -/
def w1BlackKing : Piece := { color := Side.black, type := PieceType.king, text := "k",
                             row := 0, col := 3, key := "w1bk" }

/-- A two-king board, fixture for the move-generation witness. -/
def w1Board : Board :=
  setCell (setCell emptyBoard 9 4 (some w1RedKing)) 0 3 (some w1BlackKing)

/-- A red king step, fixture for the move-generation witness. -/
def w1Move : Move := { fromR := 9, fromC := 4, toR := 8, toC := 4, score := finScore 0 }

/-- A lone red rook, fixture for the make/undo witness. -/
def w2Rook : Piece := { color := Side.red, type := PieceType.rook, text := "R",
                        row := 5, col := 4, key := "w2rr" }

/-- A one-rook board, fixture for the make/undo witness. -/
def w2Board : Board := setCell emptyBoard 5 4 (some w2Rook)

/-- A red king facing the enemy king, fixture for the rejected-move witness. -/
def w9RedKing : Piece := { color := Side.red, type := PieceType.king, text := "K",
                           row := 9, col := 4, key := "w9rk" }

/-- A black king facing the red king, fixture for the rejected-move witness. -/
def w9BlackKing : Piece := { color := Side.black, type := PieceType.king, text := "k",
                             row := 0, col := 4, key := "w9bk" }

/-- A board with the two kings facing on column 4, fixture for the
rejected-move witness. -/
def w9Board : Board :=
  setCell (setCell emptyBoard 9 4 (some w9RedKing)) 0 4 (some w9BlackKing)

/-- A red cannon, fixture for the cannon-rule witness. -/
def w5Cannon : Piece := { color := Side.red, type := PieceType.cannon, text := "C",
                          row := 7, col := 1, key := "w5rc" }

/-- A screen pawn between the cannon and its target, fixture for the
cannon-rule witness. -/
def w5Screen : Piece := { color := Side.black, type := PieceType.pawn, text := "s",
                          row := 4, col := 1, key := "w5sc" }

/-- A black rook the cannon can capture over the screen, fixture for the
cannon-rule witness. -/
def w5Target : Piece := { color := Side.black, type := PieceType.rook, text := "t",
                          row := 2, col := 1, key := "w5tg" }

/-- The cannon-screen-target board, fixture for the cannon-rule witness. -/
def w5Board : Board :=
  setCell (setCell (setCell emptyBoard 7 1 (some w5Cannon)) 4 1 (some w5Screen))
    2 1 (some w5Target)

/-- A red king outside the palace columns, on column 0: fixture for the
flying-generals counterexample. -/
def c6RedKing : Piece := { color := Side.red, type := PieceType.king, text := "K",
                           row := 9, col := 0, key := "c6rk" }

/-- A black king on column 0, fixture for the flying-generals
counterexample. -/
def c6BlackKing : Piece := { color := Side.black, type := PieceType.king, text := "k",
                             row := 0, col := 0, key := "c6bk" }

/-- A board whose two kings are aligned on column 0 with nothing between
them, fixture for the flying-generals counterexample. -/
def c6Board : Board :=
  setCell (setCell emptyBoard 9 0 (some c6RedKing)) 0 0 (some c6BlackKing)

/-- A red king in the palace, fixture for the flying-generals witness. -/
def w6RedKing : Piece := { color := Side.red, type := PieceType.king, text := "K",
                           row := 9, col := 4, key := "w6rk" }

/-- A black king in the palace, fixture for the flying-generals witness. -/
def w6BlackKing : Piece := { color := Side.black, type := PieceType.king, text := "k",
                             row := 0, col := 4, key := "w6bk" }

/-- A board with the kings facing on column 4, fixture for the
flying-generals witness. -/
def w6Board : Board :=
  setCell (setCell emptyBoard 9 4 (some w6RedKing)) 0 4 (some w6BlackKing)

/-- A red elephant, fixture for the bounds witness. -/
def w10Elephant : Piece := { color := Side.red, type := PieceType.elephant, text := "E",
                             row := 7, col := 2, key := "w10re" }

/-- A red king, fixture for the move-ordering witness. -/
def w8RedKing : Piece := { color := Side.red, type := PieceType.king, text := "K",
                           row := 9, col := 4, key := "w8rk" }

/-- A black king, fixture for the move-ordering witness. -/
def w8BlackKing : Piece := { color := Side.black, type := PieceType.king, text := "k",
                             row := 0, col := 3, key := "w8bk" }

/-- A black pawn next to the red king, fixture for the move-ordering
witness. -/
def w8Pawn : Piece := { color := Side.black, type := PieceType.pawn, text := "p",
                        row := 9, col := 5, key := "w8bp" }

/-- A board where the red king can capture a pawn, fixture for the
move-ordering witness. -/
def w8Board : Board :=
  setCell (setCell (setCell emptyBoard 9 4 (some w8RedKing)) 0 3 (some w8BlackKing))
    9 5 (some w8Pawn)

/-- The red king's capture of the pawn, fixture for the move-ordering
witness. -/
def w8Move : Move := { fromR := 9, fromC := 4, toR := 9, toC := 5, score := finScore 100 }

/-- A red king, fixture for the iterative-deepening witness. -/
def w4RedKing : Piece := { color := Side.red, type := PieceType.king, text := "K",
                           row := 9, col := 4, key := "w4rk" }

/-- A black king, fixture for the iterative-deepening witness. -/
def w4BlackKing : Piece := { color := Side.black, type := PieceType.king, text := "k",
                             row := 0, col := 3, key := "w4bk" }

/-- A two-king board, fixture for the iterative-deepening witness. -/
def w4Board : Board :=
  setCell (setCell emptyBoard 9 4 (some w4RedKing)) 0 3 (some w4BlackKing)

/-- Whether the cell `(r, c)` holds a king of side `s`. -/
def isKingOf (b : Board) (r c : Int) (s : Side) : Bool :=
  match b r c with
  | some p => decide (p.type = PieceType.king) && decide (p.color = s)
  | none => false

theorem setCell_hit (b : Board) (r c : Int) (v : Option Piece) :
    setCell b r c v r c = v := by
  simp [setCell]

theorem setCell_miss (b : Board) (r c : Int) (v : Option Piece) (r' c' : Int)
    (h : ¬(r' = r ∧ c' = c)) : setCell b r c v r' c' = b r' c' := by
  simp [setCell, h]

theorem mem_intRange {lo hi x : Int} : x ∈ intRange lo hi ↔ lo ≤ x ∧ x < hi := by
  unfold intRange
  simp only [List.mem_map, List.mem_range]
  constructor
  · rintro ⟨i, hi', rfl⟩
    omega
  · rintro ⟨h1, h2⟩
    exact ⟨(x - lo).toNat, by omega, by omega⟩

theorem mem_boardCells {rc : Int × Int} :
    rc ∈ boardCells ↔ 0 ≤ rc.1 ∧ rc.1 < 10 ∧ 0 ≤ rc.2 ∧ rc.2 < 9 := by
  obtain ⟨r, c⟩ := rc
  unfold boardCells
  simp only [List.mem_flatMap, List.mem_map, mem_intRange, Prod.mk.injEq]
  constructor
  · rintro ⟨r', hr', c', hc', rfl, rfl⟩
    exact ⟨hr'.1, hr'.2, hc'.1, hc'.2⟩
  · rintro ⟨h1, h2, h3, h4⟩
    exact ⟨r, ⟨h1, h2⟩, c, ⟨h3, h4⟩, rfl, rfl⟩

theorem mem_scanCells {rc : Int × Int} :
    rc ∈ scanCells ↔ 0 ≤ rc.1 ∧ rc.1 < 10 ∧ 3 ≤ rc.2 ∧ rc.2 < 6 := by
  obtain ⟨r, c⟩ := rc
  unfold scanCells
  simp only [List.mem_flatMap, List.mem_map, mem_intRange, Prod.mk.injEq]
  constructor
  · rintro ⟨r', hr', c', hc', rfl, rfl⟩
    exact ⟨hr'.1, hr'.2, hc'.1, hc'.2⟩
  · rintro ⟨h1, h2, h3, h4⟩
    exact ⟨r, ⟨h1, h2⟩, c, ⟨h3, h4⟩, rfl, rfl⟩

theorem isValidMove_not_same {b : Board} {p : Piece} {targetR targetC : Int}
    (h : isValidMove b p targetR targetC = true) : ¬(p.row = targetR ∧ p.col = targetC) := by
  intro hsame
  unfold isValidMove at h
  rw [if_pos hsame] at h
  exact Bool.false_ne_true h

/-- C7: for every position, the evaluation is antisymmetric in its
perspective argument: `evaluate(p, Red) = -evaluate(p, Black)`. -/
theorem evaluateBoard_antisymmetric (b : Board) :
    evaluateBoard b Side.red = -evaluateBoard b Side.black := by
  unfold evaluateBoard
  induction boardCells with
  | nil => simp
  | cons rc rest ih =>
    simp only [List.map_cons, List.sum_cons, ih, neg_add]
    congr 1
    cases b rc.1 rc.2 with
    | none => simp
    | some p =>
      cases h : p.color <;> simp [h]

/-- C2: applying the make-move protocol to a legal move and then the
undo-move protocol restores the board cell-by-cell, piece identity
included. -/
theorem make_undo_roundtrip (b : Board) (p : Piece) (targetR targetC : Int)
    (hp : b p.row p.col = some p) (hv : isValidMove b p targetR targetC = true) :
    undoMove (simulateMove b p targetR targetC) { p with row := targetR, col := targetC }
      p.row p.col targetR targetC (b targetR targetC) = b := by
  have hne := isValidMove_not_same hv
  funext r c
  unfold undoMove simulateMove
  by_cases h1 : r = targetR ∧ c = targetC
  · obtain ⟨rfl, rfl⟩ := h1
    rw [setCell_hit]
  · rw [setCell_miss _ _ _ _ _ _ h1]
    by_cases h2 : r = p.row ∧ c = p.col
    · obtain ⟨rfl, rfl⟩ := h2
      rw [setCell_hit, hp]
    · rw [setCell_miss _ _ _ _ _ _ h2, setCell_miss _ _ _ _ _ _ h1,
        setCell_miss _ _ _ _ _ _ h2]

/-- C2 witness: the roundtrip at a concrete rook move. -/
theorem make_undo_roundtrip_witness :
    w2Board w2Rook.row w2Rook.col = some w2Rook ∧
      isValidMove w2Board w2Rook 5 0 = true ∧
      undoMove (simulateMove w2Board w2Rook 5 0) { w2Rook with row := 5, col := 0 }
        w2Rook.row w2Rook.col 5 0 (w2Board 5 0) = w2Board :=
  ⟨by decide, by decide,
    make_undo_roundtrip w2Board w2Rook 5 0 (by decide) (by decide)⟩

/-- C9: a proposed player move that fails `isValidMove`, or that would leave
the kings facing, is rejected and leaves the board completely unchanged. -/
theorem attemptMove_rejected_unchanged (b : Board) (p : Piece) (targetR targetC : Int)
    (hrej : isValidMove b p targetR targetC = false ∨
      kingsFacing (simulateMove b p targetR targetC) = true) :
    attemptMove b p targetR targetC = (b, false) := by
  unfold attemptMove
  by_cases hv : isValidMove b p targetR targetC = true
  · rw [if_pos hv]
    rcases hrej with h | h
    · rw [hv] at h; cases h
    · simp only [h, if_true]
      refine Prod.ext ?_ rfl
      funext r c
      show setCell (setCell (simulateMove b p targetR targetC) p.row p.col (b p.row p.col))
        targetR targetC (b targetR targetC) r c = b r c
      by_cases h1 : r = targetR ∧ c = targetC
      · rw [h1.1, h1.2, setCell_hit]
      · rw [setCell_miss _ _ _ _ _ _ h1]
        by_cases h2 : r = p.row ∧ c = p.col
        · rw [h2.1, h2.2, setCell_hit]
        · rw [setCell_miss _ _ _ _ _ _ h2]
          unfold simulateMove
          rw [setCell_miss _ _ _ _ _ _ h1, setCell_miss _ _ _ _ _ _ h2]
  · rw [if_neg hv]

/-- C9 witness: a king step into a flying-generals exposure is rejected and
the board is unchanged. -/
theorem attemptMove_rejected_unchanged_witness :
    kingsFacing (simulateMove w9Board w9RedKing 8 4) = true ∧
      attemptMove w9Board w9RedKing 8 4 = (w9Board, false) :=
  ⟨by decide,
    attemptMove_rejected_unchanged w9Board w9RedKing 8 4 (Or.inr (by decide))⟩

/-- C5: a cannon move is legal exactly when the target shares the cannon's
row or column and either the target is empty with zero intervening occupied
cells or holds an enemy piece with exactly one intervening occupied cell;
everything else, including more than one screen or a non-aligned target, is
illegal. -/
theorem cannon_move_characterization (b : Board) (p : Piece) (targetR targetC : Int)
    (htype : p.type = PieceType.cannon) (hp : b p.row p.col = some p) :
    isValidMove b p targetR targetC = true ↔
      ((targetR = p.row ∨ targetC = p.col) ∧
        ((b targetR targetC = none ∧ countObstacles b p.row p.col targetR targetC = 0) ∨
         (∃ q, b targetR targetC = some q ∧ q.color ≠ p.color ∧
            countObstacles b p.row p.col targetR targetC = 1))) := by
  simp only [isValidMove, pieceRule, htype, hasSameColor]
  by_cases hsame : p.row = targetR ∧ p.col = targetC
  · rw [if_pos hsame]
    obtain ⟨h1, h2⟩ := hsame
    simp only [Bool.false_eq_true, false_iff]
    rintro ⟨halign, hcase | hcase⟩
    · rw [← h1, ← h2, hp] at hcase
      exact Option.noConfusion hcase.1
    · obtain ⟨q, hq, hqc, _⟩ := hcase
      rw [← h1, ← h2, hp, Option.some_inj] at hq
      exact hqc (hq ▸ rfl)
  · rw [if_neg hsame]
    by_cases ha : (targetR - p.row).natAbs > 0 ∧ (targetC - p.col).natAbs > 0
    · have hnal : ¬(targetR = p.row ∨ targetC = p.col) := by omega
      cases ht : b targetR targetC <;> simp [ht, ha, hnal]
    · have hal : targetR = p.row ∨ targetC = p.col := by omega
      cases ht : b targetR targetC with
      | none =>
        simp [ht, ha, hal]
        intro _
        omega
      | some q =>
        by_cases hqc : q.color = p.color
        · simp [ht, ha, hqc, hal]
        · simp [ht, ha, hqc, hal]
          intro _
          omega

theorem diff_two_minus (x : Int) : x - 2 - x = -2 := by ring

theorem diff_two_plus (x : Int) : x + 2 - x = 2 := by ring

theorem diff_one_minus (x : Int) : x - 1 - x = -1 := by ring

theorem diff_one_plus (x : Int) : x + 1 - x = 1 := by ring

/-- C10: every candidate destination of a piece standing on the 10x9 grid is
itself on the grid, and the elephant's eye cell and the horse's leg cell that
`isValidMove` reads for such a destination are on the grid too, so
`generateLegalMoves` never indexes outside the board. -/
theorem getPossibleDestinations_in_bounds (p : Piece)
    (hr : 0 ≤ p.row ∧ p.row < 10) (hc : 0 ≤ p.col ∧ p.col < 9) :
    ∀ d ∈ getPossibleDestinations p,
      (0 ≤ d.1 ∧ d.1 < 10 ∧ 0 ≤ d.2 ∧ d.2 < 9) ∧
      (p.type = PieceType.elephant →
        0 ≤ (elephantEye p d.1 d.2).1 ∧ (elephantEye p d.1 d.2).1 < 10 ∧
        0 ≤ (elephantEye p d.1 d.2).2 ∧ (elephantEye p d.1 d.2).2 < 9) ∧
      (p.type = PieceType.horse →
        0 ≤ (horseLeg p d.1 d.2).1 ∧ (horseLeg p d.1 d.2).1 < 10 ∧
        0 ≤ (horseLeg p d.1 d.2).2 ∧ (horseLeg p d.1 d.2).2 < 9) := by
  intro d hd
  cases hty : p.type with
  | king =>
    simp only [getPossibleDestinations, hty] at hd
    simp only [List.mem_flatMap, mem_intRange] at hd
    obtain ⟨i, hi, j, hj, hij⟩ := hd
    split at hij
    · simp at hij
      subst hij
      refine ⟨by omega, by simp [hty], by simp [hty]⟩
    · simp at hij
  | advisor =>
    simp only [getPossibleDestinations, hty] at hd
    simp only [List.mem_flatMap, mem_intRange] at hd
    obtain ⟨i, hi, j, hj, hij⟩ := hd
    split at hij
    · simp at hij
      subst hij
      refine ⟨by omega, by simp [hty], by simp [hty]⟩
    · simp at hij
  | elephant =>
    simp only [getPossibleDestinations, hty, List.mem_filter, decide_eq_true_eq] at hd
    obtain ⟨hmem, hbnd⟩ := hd
    refine ⟨by omega, fun _ => ?_, by simp [hty]⟩
    simp only [List.mem_cons, List.not_mem_nil, or_false] at hmem
    rcases hmem with h | h | h | h <;> subst h <;>
      · simp only [elephantEye, diff_two_minus, diff_two_plus] at *
        norm_num at *
        omega
  | horse =>
    simp only [getPossibleDestinations, hty, List.mem_filter, decide_eq_true_eq] at hd
    obtain ⟨hmem, hbnd⟩ := hd
    refine ⟨by omega, by simp [hty], fun _ => ?_⟩
    simp only [List.mem_cons, List.not_mem_nil, or_false] at hmem
    rcases hmem with h | h | h | h | h | h | h | h <;> subst h <;>
      · simp only [horseLeg, diff_two_minus, diff_two_plus, diff_one_minus,
          diff_one_plus] at *
        norm_num at *
        omega
  | pawn =>
    simp only [getPossibleDestinations, hty, List.mem_filter, decide_eq_true_eq] at hd
    obtain ⟨hmem, hbnd⟩ := hd
    exact ⟨by omega, by simp [hty], by simp [hty]⟩
  | rook =>
    simp only [getPossibleDestinations, hty, List.mem_append, List.mem_filterMap,
      mem_intRange] at hd
    rcases hd with ⟨i, hi, hif⟩ | ⟨j, hj, hjf⟩
    · split at hif
      · simp at hif; subst hif
        exact ⟨by omega, by simp [hty], by simp [hty]⟩
      · simp at hif
    · split at hjf
      · simp at hjf; subst hjf
        exact ⟨by omega, by simp [hty], by simp [hty]⟩
      · simp at hjf
  | cannon =>
    simp only [getPossibleDestinations, hty, List.mem_append, List.mem_filterMap,
      mem_intRange] at hd
    rcases hd with ⟨i, hi, hif⟩ | ⟨j, hj, hjf⟩
    · split at hif
      · simp at hif; subst hif
        exact ⟨by omega, by simp [hty], by simp [hty]⟩
      · simp at hif
    · split at hjf
      · simp at hjf; subst hjf
        exact ⟨by omega, by simp [hty], by simp [hty]⟩
      · simp at hjf

/-- C10 witness: the bounds at a concrete elephant move. -/
theorem getPossibleDestinations_in_bounds_witness :
    (0 ≤ w10Elephant.row ∧ w10Elephant.row < 10) ∧
      (0 ≤ w10Elephant.col ∧ w10Elephant.col < 9) ∧
      ((5, 0) ∈ getPossibleDestinations w10Elephant) ∧
      ((0 ≤ (5 : Int) ∧ (5 : Int) < 10 ∧ 0 ≤ (0 : Int) ∧ (0 : Int) < 9) ∧
        (w10Elephant.type = PieceType.elephant →
          0 ≤ (elephantEye w10Elephant 5 0).1 ∧ (elephantEye w10Elephant 5 0).1 < 10 ∧
          0 ≤ (elephantEye w10Elephant 5 0).2 ∧ (elephantEye w10Elephant 5 0).2 < 9) ∧
        (w10Elephant.type = PieceType.horse →
          0 ≤ (horseLeg w10Elephant 5 0).1 ∧ (horseLeg w10Elephant 5 0).1 < 10 ∧
          0 ≤ (horseLeg w10Elephant 5 0).2 ∧ (horseLeg w10Elephant 5 0).2 < 9)) :=
  ⟨by decide, by decide, by decide,
    getPossibleDestinations_in_bounds w10Elephant (by decide) (by decide) (5, 0) (by decide)⟩

/-- C5 witness: the characterization at a concrete capture over one screen. -/
theorem cannon_move_characterization_witness :
    (w5Cannon.type = PieceType.cannon ∧ w5Board w5Cannon.row w5Cannon.col = some w5Cannon) ∧
      (isValidMove w5Board w5Cannon 2 1 = true ↔
        ((2 = w5Cannon.row ∨ 1 = w5Cannon.col) ∧
          ((w5Board 2 1 = none ∧ countObstacles w5Board w5Cannon.row w5Cannon.col 2 1 = 0) ∨
           (∃ q, w5Board 2 1 = some q ∧ q.color ≠ w5Cannon.color ∧
              countObstacles w5Board w5Cannon.row w5Cannon.col 2 1 = 1)))) :=
  ⟨⟨by decide, by decide⟩,
    cannon_move_characterization w5Board w5Cannon 2 1 (by decide) (by decide)⟩

theorem foldl_scan_fst_of_no_red (b : Board) (L : List (Int × Int))
    (h : ∀ rc ∈ L, isKingOf b rc.1 rc.2 Side.red = false) :
    ∀ s, (L.foldl (kingScanStep b) s).1 = s.1 := by
  induction L with
  | nil => intro s; rfl
  | cons hd tl ih =>
    intro s
    rw [List.foldl_cons]
    rw [ih (fun rc hrc => h rc (List.mem_cons_of_mem hd hrc))]
    have hhd := h hd (List.mem_cons_self hd tl)
    unfold kingScanStep isKingOf at *
    cases hb : b hd.1 hd.2 with
    | none => rfl
    | some p =>
      rw [hb] at hhd
      by_cases hk : p.type = PieceType.king
      · simp only [hk] at hhd
        simp at hhd
        simp [hk, hhd]
      · simp [hk]

theorem foldl_scan_snd_of_no_black (b : Board) (L : List (Int × Int))
    (h : ∀ rc ∈ L, isKingOf b rc.1 rc.2 Side.black = false) :
    ∀ s, (L.foldl (kingScanStep b) s).2 = s.2 := by
  induction L with
  | nil => intro s; rfl
  | cons hd tl ih =>
    intro s
    rw [List.foldl_cons]
    rw [ih (fun rc hrc => h rc (List.mem_cons_of_mem hd hrc))]
    have hhd := h hd (List.mem_cons_self hd tl)
    unfold kingScanStep isKingOf at *
    cases hb : b hd.1 hd.2 with
    | none => rfl
    | some p =>
      rw [hb] at hhd
      by_cases hk : p.type = PieceType.king
      · simp only [hk] at hhd
        simp at hhd
        have hcr : p.color = Side.red := by
          cases hcol : p.color
          · rfl
          · exact absurd hcol hhd
        simp [hk, hcr]
      · simp [hk]

theorem foldl_scan_fst_unique_red (b : Board) (x : Int × Int)
    (hx : isKingOf b x.1 x.2 Side.red = true) :
    ∀ (L : List (Int × Int)), x ∈ L →
      (∀ rc ∈ L, isKingOf b rc.1 rc.2 Side.red = true → rc = x) →
      ∀ s, (L.foldl (kingScanStep b) s).1 = some x := by
  intro L
  induction L with
  | nil => intro hmem; cases hmem
  | cons hd tl ih =>
    intro hmem huniq s
    rw [List.foldl_cons]
    by_cases hhd : hd = x
    · subst hhd
      have hstep : (kingScanStep b s hd).1 = some hd := by
        unfold kingScanStep isKingOf at *
        cases hb : b hd.1 hd.2 with
        | none => rw [hb] at hx; cases hx
        | some p =>
          rw [hb] at hx
          simp only [Bool.and_eq_true, decide_eq_true_eq] at hx
          simp [hx.1, hx.2]
      by_cases hm : hd ∈ tl
      · exact ih hm (fun rc hrc h => huniq rc (List.mem_cons_of_mem hd hrc) h) _
      · have hno : ∀ rc ∈ tl, isKingOf b rc.1 rc.2 Side.red = false := by
          intro rc hrc
          by_contra hcon
          have := huniq rc (List.mem_cons_of_mem hd hrc) (eq_true_of_ne_false hcon)
          exact hm (this ▸ hrc)
        rw [foldl_scan_fst_of_no_red b tl hno]
        exact hstep
    · have hmem' : x ∈ tl := by
        cases hmem with
        | head => exact absurd rfl hhd
        | tail _ h => exact h
      exact ih hmem' (fun rc hrc h => huniq rc (List.mem_cons_of_mem hd hrc) h) _

theorem foldl_scan_snd_unique_black (b : Board) (x : Int × Int)
    (hx : isKingOf b x.1 x.2 Side.black = true) :
    ∀ (L : List (Int × Int)), x ∈ L →
      (∀ rc ∈ L, isKingOf b rc.1 rc.2 Side.black = true → rc = x) →
      ∀ s, (L.foldl (kingScanStep b) s).2 = some x := by
  intro L
  induction L with
  | nil => intro hmem; cases hmem
  | cons hd tl ih =>
    intro hmem huniq s
    rw [List.foldl_cons]
    by_cases hhd : hd = x
    · subst hhd
      have hstep : (kingScanStep b s hd).2 = some hd := by
        unfold kingScanStep isKingOf at *
        cases hb : b hd.1 hd.2 with
        | none => rw [hb] at hx; cases hx
        | some p =>
          rw [hb] at hx
          simp only [Bool.and_eq_true, decide_eq_true_eq] at hx
          have hcr : ¬p.color = Side.red := by
            rw [hx.2]
            intro h
            cases h
          simp [hx.1, hcr]
      by_cases hm : hd ∈ tl
      · exact ih hm (fun rc hrc h => huniq rc (List.mem_cons_of_mem hd hrc) h) _
      · have hno : ∀ rc ∈ tl, isKingOf b rc.1 rc.2 Side.black = false := by
          intro rc hrc
          by_contra hcon
          have := huniq rc (List.mem_cons_of_mem hd hrc) (eq_true_of_ne_false hcon)
          exact hm (this ▸ hrc)
        rw [foldl_scan_snd_of_no_black b tl hno]
        exact hstep
    · have hmem' : x ∈ tl := by
        cases hmem with
        | head => exact absurd rfl hhd
        | tail _ h => exact h
      exact ih hmem' (fun rc hrc h => huniq rc (List.mem_cons_of_mem hd hrc) h) _

/-- C6 counterexample: on a board whose only pieces are the two kings, both
standing in column 0 with zero occupied cells strictly between them,
`kingsFacing()` returns false, because its scan only covers columns 3-5. -/
theorem kingsFacing_counterexample :
    c6Board 9 0 = some c6RedKing ∧ c6RedKing.type = PieceType.king ∧
      c6RedKing.color = Side.red ∧
      c6Board 0 0 = some c6BlackKing ∧ c6BlackKing.type = PieceType.king ∧
      c6BlackKing.color = Side.black ∧
      (∀ rc ∈ boardCells, rc ≠ ((9 : Int), (0 : Int)) → rc ≠ ((0 : Int), (0 : Int)) →
        c6Board rc.1 rc.2 = none) ∧
      c6RedKing.col = c6BlackKing.col ∧
      countObstacles c6Board 9 0 0 0 = 0 ∧
      kingsFacing c6Board = false := by
  decide

/-- C6 (amended): on any board carrying, within the scanned region of rows
0-9 and columns 3-5 (which contains both palaces), exactly one red King and
exactly one black King, `kingsFacing()` returns true iff the two Kings stand
in the same column with zero occupied cells strictly between them. -/
theorem kingsFacing_iff_palace_kings (b : Board) (r1 c1 r2 c2 : Int)
    (hred : isKingOf b r1 c1 Side.red = true)
    (hblack : isKingOf b r2 c2 Side.black = true)
    (hm1 : (r1, c1) ∈ scanCells) (hm2 : (r2, c2) ∈ scanCells)
    (huniq : ∀ rc ∈ scanCells,
      (isKingOf b rc.1 rc.2 Side.red = true → rc = (r1, c1)) ∧
      (isKingOf b rc.1 rc.2 Side.black = true → rc = (r2, c2))) :
    kingsFacing b = true ↔ (c1 = c2 ∧ countObstacles b r1 c1 r2 c2 = 0) := by
  have h1 : (scanCells.foldl (kingScanStep b) (none, none)).1 = some (r1, c1) :=
    foldl_scan_fst_unique_red b (r1, c1) hred scanCells hm1
      (fun rc hrc h => (huniq rc hrc).1 h) _
  have h2 : (scanCells.foldl (kingScanStep b) (none, none)).2 = some (r2, c2) :=
    foldl_scan_snd_unique_black b (r2, c2) hblack scanCells hm2
      (fun rc hrc h => (huniq rc hrc).2 h) _
  simp only [kingsFacing]
  rw [h1, h2]
  by_cases hcc : c1 = c2 <;> simp [hcc]

/-- C6 witness: the amended statement at a concrete facing position. -/
theorem kingsFacing_iff_palace_kings_witness :
    isKingOf w6Board 9 4 Side.red = true ∧
      isKingOf w6Board 0 4 Side.black = true ∧
      (kingsFacing w6Board = true ↔
        ((4 : Int) = 4 ∧ countObstacles w6Board 9 4 0 4 = 0)) :=
  ⟨by decide, by decide,
    kingsFacing_iff_palace_kings w6Board 9 4 0 4 (by decide) (by decide)
      (by decide) (by decide) (by decide)⟩

theorem mem_generateLegalMoves {b : Board} {color : Side} {m : Move}
    (hm : m ∈ generateLegalMoves b color) :
    ∃ rc ∈ boardCells, ∃ p : Piece, b rc.1 rc.2 = some p ∧ p.color = color ∧
      ∃ dest ∈ getPossibleDestinations p,
        isValidMove b p dest.1 dest.2 = true ∧
        kingsFacing (simulateMove b p dest.1 dest.2) = false ∧
        m = { fromR := p.row, fromC := p.col, toR := dest.1, toC := dest.2,
              score := finScore (match b dest.1 dest.2 with
                | some cap => pieceValue cap.type
                | none => 0) } := by
  unfold generateLegalMoves at hm
  rw [List.mem_mergeSort] at hm
  rw [List.mem_flatMap] at hm
  obtain ⟨rc, hrc, hmem⟩ := hm
  refine ⟨rc, hrc, ?_⟩
  cases hb : b rc.1 rc.2 with
  | none => rw [hb] at hmem; cases hmem
  | some p =>
    rw [hb] at hmem
    have hmem' : m ∈ (if p.color = color then
        List.filterMap (moveCandidate b p) (getPossibleDestinations p) else []) := hmem
    by_cases hpc : p.color = color
    · rw [if_pos hpc] at hmem'
      rw [List.mem_filterMap] at hmem'
      obtain ⟨dest, hdest, hcand⟩ := hmem'
      unfold moveCandidate at hcand
      by_cases hv : isValidMove b p dest.1 dest.2 = true
      · rw [if_pos hv] at hcand
        by_cases hkf : kingsFacing (simulateMove b p dest.1 dest.2) = true
        · rw [if_pos hkf] at hcand; cases hcand
        · rw [if_neg hkf] at hcand
          rw [Option.some_inj] at hcand
          exact ⟨p, rfl, hpc, dest, hdest, hv,
            Bool.eq_false_iff.mpr (fun h => hkf h), hcand.symm⟩
      · rw [if_neg hv] at hcand; cases hcand
    · rw [if_neg hpc] at hmem'; cases hmem'

/-- C1: for every consistent (in particular, every reachable) position and
side, no move returned by `generateLegalMoves` leaves the kings facing when
simulated on the board by the make-move protocol. -/
theorem generateLegalMoves_no_flying_generals (b : Board) (color : Side) (m : Move)
    (hc : Consistent b) (hm : m ∈ generateLegalMoves b color) :
    kingsFacing (applyMove b m) = false := by
  obtain ⟨rc, hrc, p, hp, hpc, dest, hdest, hv, hkf, rfl⟩ := mem_generateLegalMoves hm
  obtain ⟨hrow, hcol⟩ := hc rc hrc p hp
  have hp' : b p.row p.col = some p := by rw [hrow, hcol]; exact hp
  simp only [applyMove]
  rw [hp']
  exact hkf

/-- C1 witness: a concrete generated king move simulates to a non-facing
position. -/
theorem generateLegalMoves_no_flying_generals_witness :
    Consistent w1Board ∧ w1Move ∈ generateLegalMoves w1Board Side.red ∧
      kingsFacing (applyMove w1Board w1Move) = false :=
  ⟨by decide, by simp only [generateLegalMoves, List.mem_mergeSort]; decide,
    generateLegalMoves_no_flying_generals w1Board Side.red w1Move (by decide)
      (by simp only [generateLegalMoves, List.mem_mergeSort]; decide)⟩

/-- C8: the move list returned by `generateLegalMoves` is sorted in
descending order of capture score, and each move's score is the material
value of the piece on its destination cell, or 0 when that cell is empty. -/
theorem generateLegalMoves_sorted_by_capture (b : Board) (color : Side) :
    List.Pairwise (fun m1 m2 => m2.score ≤ m1.score) (generateLegalMoves b color) ∧
    ∀ m ∈ generateLegalMoves b color,
      m.score = finScore (match b m.toR m.toC with
        | some cap => pieceValue cap.type
        | none => 0) := by
  constructor
  · unfold generateLegalMoves
    have hs := @List.sorted_mergeSort Move
      (fun m1 m2 : Move => decide (m2.score ≤ m1.score))
      (fun x y z hxy hyz => by
        simp only [decide_eq_true_eq] at *
        exact le_trans hyz hxy)
      (fun x y => by
        simp only [Bool.or_eq_true, decide_eq_true_eq]
        exact le_total y.score x.score)
      (boardCells.flatMap (fun rc =>
        match b rc.1 rc.2 with
        | some p =>
          if p.color = color then (getPossibleDestinations p).filterMap (moveCandidate b p)
          else []
        | none => []))
    exact hs.imp (fun h => of_decide_eq_true h)
  · intro m hm
    obtain ⟨rc, hrc, p, hp, hpc, dest, hdest, hv, hkf, rfl⟩ := mem_generateLegalMoves hm
    rfl

/-- C8 witness: the ordering and scoring at a concrete position with one
capture available. -/
theorem generateLegalMoves_sorted_by_capture_witness :
    w8Move ∈ generateLegalMoves w8Board Side.red ∧
      List.Pairwise (fun m1 m2 => m2.score ≤ m1.score)
        (generateLegalMoves w8Board Side.red) ∧
      w8Move.score = finScore (match w8Board w8Move.toR w8Move.toC with
        | some cap => pieceValue cap.type
        | none => 0) :=
  ⟨by simp only [generateLegalMoves, List.mem_mergeSort]; decide,
    (generateLegalMoves_sorted_by_capture w8Board Side.red).1,
    (generateLegalMoves_sorted_by_capture w8Board Side.red).2 w8Move
      (by simp only [generateLegalMoves, List.mem_mergeSort]; decide)⟩

theorem finScore_ne_bot (n : Int) : finScore n ≠ ⊥ := WithBot.coe_ne_bot

theorem finScore_ne_top (n : Int) : finScore n ≠ ⊤ := by
  intro h
  unfold finScore at h
  rw [show (⊤ : Score) = ((⊤ : WithTop Int) : Score) from rfl, WithBot.coe_inj] at h
  exact WithTop.coe_ne_top h

theorem bot_lt_finScore (n : Int) : (⊥ : Score) < finScore n := WithBot.bot_lt_coe _

theorem finScore_lt_top (n : Int) : finScore n < ⊤ := by
  unfold finScore
  rw [show (⊤ : Score) = ((⊤ : WithTop Int) : Score) from rfl, WithBot.coe_lt_coe]
  exact WithTop.coe_lt_top n

theorem maxLoop_nil (child : Board → Score → Score → Score) (b : Board)
    (alpha beta maxEval : Score) (best : Option Move) :
    maxLoop child b [] alpha beta maxEval best = finishLoop best maxEval := rfl

theorem maxLoop_cons (child : Board → Score → Score → Score) (b : Board)
    (mv : Move) (rest : List Move) (alpha beta maxEval : Score) (best : Option Move) :
    maxLoop child b (mv :: rest) alpha beta maxEval best =
      (let ev := child (applyMove b mv) alpha beta
       let st := if maxEval < ev then (ev, some { mv with score := ev })
         else (maxEval, best)
       if beta ≤ max alpha ev then finishLoop st.2 st.1
       else maxLoop child b rest (max alpha ev) beta st.1 st.2) := rfl

theorem minLoop_nil (child : Board → Score → Score → Score) (b : Board)
    (alpha beta minEval : Score) (best : Option Move) :
    minLoop child b [] alpha beta minEval best = finishLoop best minEval := rfl

theorem minLoop_cons (child : Board → Score → Score → Score) (b : Board)
    (mv : Move) (rest : List Move) (alpha beta minEval : Score) (best : Option Move) :
    minLoop child b (mv :: rest) alpha beta minEval best =
      (let ev := child (applyMove b mv) alpha beta
       let st := if ev < minEval then (ev, some { mv with score := ev })
         else (minEval, best)
       if min beta ev ≤ alpha then finishLoop st.2 st.1
       else minLoop child b rest alpha (min beta ev) st.1 st.2) := rfl

theorem fullMaxLoop_nil (child : Board → Score) (b : Board)
    (maxEval : Score) (best : Option Move) :
    fullMaxLoop child b [] maxEval best = finishLoop best maxEval := rfl

theorem fullMaxLoop_cons (child : Board → Score) (b : Board)
    (mv : Move) (rest : List Move) (maxEval : Score) (best : Option Move) :
    fullMaxLoop child b (mv :: rest) maxEval best =
      (let ev := child (applyMove b mv)
       let st := if maxEval < ev then (ev, some { mv with score := ev })
         else (maxEval, best)
       fullMaxLoop child b rest st.1 st.2) := rfl

theorem fullMinLoop_nil (child : Board → Score) (b : Board)
    (minEval : Score) (best : Option Move) :
    fullMinLoop child b [] minEval best = finishLoop best minEval := rfl

theorem fullMinLoop_cons (child : Board → Score) (b : Board)
    (mv : Move) (rest : List Move) (minEval : Score) (best : Option Move) :
    fullMinLoop child b (mv :: rest) minEval best =
      (let ev := child (applyMove b mv)
       let st := if ev < minEval then (ev, some { mv with score := ev })
         else (minEval, best)
       fullMinLoop child b rest st.1 st.2) := rfl

theorem finishLoop_some (mv : Move) (extremum : Score) :
    finishLoop (some mv) extremum = { move? := some mv, score := mv.score } := rfl

theorem finishLoop_none (extremum : Score) :
    finishLoop none extremum = { move? := none, score := extremum } := rfl

theorem maxLoop_fin_isSome (child : Board → Score → Score → Score) (b : Board) :
    ∀ (ms : List Move) (alpha beta maxEval : Score) (best : Option Move),
      (∀ mv, best = some mv → mv.score = maxEval) →
      ((∃ n, maxEval = finScore n) ∧ best.isSome = true ∨
        maxEval = ⊥ ∧ best = none ∧ ms ≠ []) →
      (∀ m ∈ ms, ∀ a β', ∃ n, child (applyMove b m) a β' = finScore n) →
      (maxLoop child b ms alpha beta maxEval best).move?.isSome = true ∧
        ∃ n, (maxLoop child b ms alpha beta maxEval best).score = finScore n := by
  intro ms
  induction ms with
  | nil =>
    intro alpha beta maxEval best hinv hst hch
    rcases hst with ⟨⟨n, hn⟩, hsome⟩ | ⟨_, _, hne⟩
    · cases best with
      | none => cases hsome
      | some mv =>
        rw [maxLoop_nil, finishLoop_some]
        exact ⟨rfl, n, by rw [hinv mv rfl, hn]⟩
    · exact absurd rfl hne
  | cons mv rest ih =>
    intro alpha beta maxEval best hinv hst hch
    obtain ⟨k, hk⟩ := hch mv (List.mem_cons_self mv rest) alpha beta
    rw [maxLoop_cons]
    have hchrest : ∀ m ∈ rest, ∀ a β', ∃ n, child (applyMove b m) a β' = finScore n :=
      fun m hm => hch m (List.mem_cons_of_mem mv hm)
    have hupfin : ∀ hyp : maxEval < child (applyMove b mv) alpha beta, True := fun _ => trivial
    by_cases hup : maxEval < child (applyMove b mv) alpha beta
    · simp only [if_pos hup]
      by_cases hbr : beta ≤ max alpha (child (applyMove b mv) alpha beta)
      · simp only [if_pos hbr, finishLoop_some]
        exact ⟨rfl, k, hk⟩
      · simp only [if_neg hbr]
        exact ih _ _ _ _ (fun mv' h => by cases h; rfl) (Or.inl ⟨⟨k, hk⟩, rfl⟩) hchrest
    · rcases hst with ⟨⟨n, hn⟩, hsome⟩ | ⟨hbot, hbest, _⟩
      · simp only [if_neg hup]
        by_cases hbr : beta ≤ max alpha (child (applyMove b mv) alpha beta)
        · simp only [if_pos hbr]
          cases best with
          | none => cases hsome
          | some mv' =>
            rw [finishLoop_some]
            exact ⟨rfl, n, by rw [hinv mv' rfl, hn]⟩
        · simp only [if_neg hbr]
          exact ih _ _ _ _ hinv (Or.inl ⟨⟨n, hn⟩, hsome⟩) hchrest
      · exact absurd (hbot ▸ (hk ▸ bot_lt_finScore k : (⊥ : Score) <
          child (applyMove b mv) alpha beta)) hup

theorem minLoop_fin_isSome (child : Board → Score → Score → Score) (b : Board) :
    ∀ (ms : List Move) (alpha beta minEval : Score) (best : Option Move),
      (∀ mv, best = some mv → mv.score = minEval) →
      ((∃ n, minEval = finScore n) ∧ best.isSome = true ∨
        minEval = ⊤ ∧ best = none ∧ ms ≠ []) →
      (∀ m ∈ ms, ∀ a β', ∃ n, child (applyMove b m) a β' = finScore n) →
      (minLoop child b ms alpha beta minEval best).move?.isSome = true ∧
        ∃ n, (minLoop child b ms alpha beta minEval best).score = finScore n := by
  intro ms
  induction ms with
  | nil =>
    intro alpha beta minEval best hinv hst hch
    rcases hst with ⟨⟨n, hn⟩, hsome⟩ | ⟨_, _, hne⟩
    · cases best with
      | none => cases hsome
      | some mv =>
        rw [minLoop_nil, finishLoop_some]
        exact ⟨rfl, n, by rw [hinv mv rfl, hn]⟩
    · exact absurd rfl hne
  | cons mv rest ih =>
    intro alpha beta minEval best hinv hst hch
    obtain ⟨k, hk⟩ := hch mv (List.mem_cons_self mv rest) alpha beta
    rw [minLoop_cons]
    have hchrest : ∀ m ∈ rest, ∀ a β', ∃ n, child (applyMove b m) a β' = finScore n :=
      fun m hm => hch m (List.mem_cons_of_mem mv hm)
    by_cases hup : child (applyMove b mv) alpha beta < minEval
    · simp only [if_pos hup]
      by_cases hbr : min beta (child (applyMove b mv) alpha beta) ≤ alpha
      · simp only [if_pos hbr, finishLoop_some]
        exact ⟨rfl, k, hk⟩
      · simp only [if_neg hbr]
        exact ih _ _ _ _ (fun mv' h => by cases h; rfl) (Or.inl ⟨⟨k, hk⟩, rfl⟩) hchrest
    · rcases hst with ⟨⟨n, hn⟩, hsome⟩ | ⟨htop, hbest, _⟩
      · simp only [if_neg hup]
        by_cases hbr : min beta (child (applyMove b mv) alpha beta) ≤ alpha
        · simp only [if_pos hbr]
          cases best with
          | none => cases hsome
          | some mv' =>
            rw [finishLoop_some]
            exact ⟨rfl, n, by rw [hinv mv' rfl, hn]⟩
        · simp only [if_neg hbr]
          exact ih _ _ _ _ hinv (Or.inl ⟨⟨n, hn⟩, hsome⟩) hchrest
      · exact absurd (htop ▸ (hk ▸ finScore_lt_top k : child (applyMove b mv) alpha beta <
          (⊤ : Score))) hup

theorem minimax_score_fin :
    ∀ (depth : Nat) (b : Board) (alpha beta : Score) (isMaximizing : Bool) (myColor : Side),
      ∃ n, (minimax b depth alpha beta isMaximizing myColor).score = finScore n := by
  intro depth
  induction depth with
  | zero => intro b alpha beta isMax c; exact ⟨evaluateBoard b c, rfl⟩
  | succ d ih =>
    intro b alpha beta isMax c
    simp only [minimax]
    by_cases hemp : (generateLegalMoves b (if isMax then c else c.opp)).isEmpty
    · rw [if_pos hemp]
      exact ⟨if isMax then -100000 else 100000, rfl⟩
    · rw [if_neg hemp]
      have hne : generateLegalMoves b (if isMax then c else c.opp) ≠ [] := by
        intro h
        rw [h] at hemp
        exact hemp rfl
      cases isMax with
      | true =>
        rw [if_pos rfl]
        exact (maxLoop_fin_isSome _ b _ alpha beta ⊥ none (fun _ h => by cases h)
          (Or.inr ⟨rfl, rfl, hne⟩) (fun m _ a β' => ih _ a β' false c)).2
      | false =>
        rw [if_neg (by simp)]
        exact (minLoop_fin_isSome _ b _ alpha beta ⊤ none (fun _ h => by cases h)
          (Or.inr ⟨rfl, rfl, hne⟩) (fun m _ a β' => ih _ a β' true c)).2

theorem minimax_move_isSome (d : Nat) (b : Board) (alpha beta : Score) (myColor : Side)
    (hne : generateLegalMoves b myColor ≠ []) :
    (minimax b (d + 1) alpha beta true myColor).move?.isSome = true := by
  simp only [minimax, if_true]
  rw [if_neg (fun h => hne (List.isEmpty_iff.mp h))]
  exact (maxLoop_fin_isSome _ b _ alpha beta ⊥ none (fun _ h => by cases h)
    (Or.inr ⟨rfl, rfl, hne⟩) (fun m _ a β' => minimax_score_fin d _ a β' false myColor)).1

/-- C4: the worker's iterative-deepening loop searches depth 1 up to D and,
whenever the side to move has any legal move, posts exactly the best move
found by the search at the deepest depth D. -/
theorem iterDeepening_returns_deepest (b : Board) (turn : Side) (maxDepth : Nat)
    (hd : 1 ≤ maxDepth) (hmoves : generateLegalMoves b turn ≠ []) :
    iterDeepening b turn maxDepth = some (minimax b maxDepth ⊥ ⊤ true turn) := by
  induction maxDepth with
  | zero => omega
  | succ n ihn =>
    unfold iterDeepening
    rw [List.range_succ, List.foldl_append, List.foldl_cons, List.foldl_nil]
    cases Nat.eq_zero_or_pos n with
    | inl h0 =>
      subst h0
      simp only [List.range_zero, List.foldl_nil]
      rw [if_pos (minimax_move_isSome 0 b ⊥ ⊤ turn hmoves)]
    | inr hpos =>
      have hn := ihn hpos
      unfold iterDeepening at hn
      rw [hn]
      rw [if_pos (minimax_move_isSome n b ⊥ ⊤ turn hmoves)]

/-- C4 witness: iterative deepening to depth 2 on a concrete two-king board
returns the depth-2 search result. -/
theorem iterDeepening_returns_deepest_witness :
    generateLegalMoves w4Board Side.red ≠ [] ∧
      iterDeepening w4Board Side.red 2 = some (minimax w4Board 2 ⊥ ⊤ true Side.red) :=
  have hmem : ({ fromR := 9, fromC := 4, toR := 8, toC := 4, score := finScore 0 } : Move)
      ∈ generateLegalMoves w4Board Side.red := by
    simp only [generateLegalMoves, List.mem_mergeSort]
    decide
  ⟨List.ne_nil_of_mem hmem,
    iterDeepening_returns_deepest w4Board Side.red 2 (by decide)
      (List.ne_nil_of_mem hmem)⟩

theorem finishLoop_score {best : Option Move} {extremum : Score}
    (hinv : ∀ mv, best = some mv → mv.score = extremum) :
    (finishLoop best extremum).score = extremum := by
  cases best with
  | none => rfl
  | some mv => exact hinv mv rfl

theorem foldl_max_mono {α β : Type} [LinearOrder α] (g : β → α) :
    ∀ (l : List β) {a a' : α}, a ≤ a' →
      l.foldl (fun acc m => max acc (g m)) a ≤ l.foldl (fun acc m => max acc (g m)) a' := by
  intro l
  induction l with
  | nil => intro a a' h; exact h
  | cons x xs ih =>
    intro a a' h
    rw [List.foldl_cons, List.foldl_cons]
    exact ih (max_le_max h le_rfl)

theorem le_foldl_max {α β : Type} [LinearOrder α] (g : β → α) :
    ∀ (l : List β) (a : α), a ≤ l.foldl (fun acc m => max acc (g m)) a := by
  intro l
  induction l with
  | nil => intro a; exact le_rfl
  | cons x xs ih =>
    intro a
    rw [List.foldl_cons]
    exact le_trans (le_max_left a (g x)) (ih _)

theorem foldl_max_pull {α β : Type} [LinearOrder α] (g : β → α) :
    ∀ (l : List β) (x a : α),
      l.foldl (fun acc m => max acc (g m)) (max x a) =
        max x (l.foldl (fun acc m => max acc (g m)) a) := by
  intro l
  induction l with
  | nil => intro x a; rfl
  | cons y ys ih =>
    intro x a
    rw [List.foldl_cons, List.foldl_cons, max_assoc, ih]

theorem min_foldl_max {α β : Type} [LinearOrder α] (g : β → α) (c : α) :
    ∀ (l : List β) (a : α),
      min c (l.foldl (fun acc m => max acc (g m)) a) =
        l.foldl (fun acc m => max acc (min c (g m))) (min c a) := by
  intro l
  induction l with
  | nil => intro a; rfl
  | cons y ys ih =>
    intro a
    rw [List.foldl_cons, List.foldl_cons, ih, min_max_distrib_left]

theorem foldl_min_mono {α β : Type} [LinearOrder α] (g : β → α) :
    ∀ (l : List β) {a a' : α}, a ≤ a' →
      l.foldl (fun acc m => min acc (g m)) a ≤ l.foldl (fun acc m => min acc (g m)) a' := by
  intro l
  induction l with
  | nil => intro a a' h; exact h
  | cons x xs ih =>
    intro a a' h
    rw [List.foldl_cons, List.foldl_cons]
    exact ih (min_le_min h le_rfl)

theorem foldl_min_le {α β : Type} [LinearOrder α] (g : β → α) :
    ∀ (l : List β) (a : α), l.foldl (fun acc m => min acc (g m)) a ≤ a := by
  intro l
  induction l with
  | nil => intro a; exact le_rfl
  | cons x xs ih =>
    intro a
    rw [List.foldl_cons]
    exact le_trans (ih _) (min_le_left a (g x))

theorem foldl_min_pull {α β : Type} [LinearOrder α] (g : β → α) :
    ∀ (l : List β) (x a : α),
      l.foldl (fun acc m => min acc (g m)) (min x a) =
        min x (l.foldl (fun acc m => min acc (g m)) a) := by
  intro l
  induction l with
  | nil => intro x a; rfl
  | cons y ys ih =>
    intro x a
    rw [List.foldl_cons, List.foldl_cons, min_assoc, ih]

theorem max_foldl_min {α β : Type} [LinearOrder α] (g : β → α) (c : α) :
    ∀ (l : List β) (a : α),
      max c (l.foldl (fun acc m => min acc (g m)) a) =
        l.foldl (fun acc m => min acc (max c (g m))) (max c a) := by
  intro l
  induction l with
  | nil => intro a; rfl
  | cons y ys ih =>
    intro a
    rw [List.foldl_cons, List.foldl_cons, ih, max_min_distrib_left]

theorem finScore_le_finScore {n k : Int} : finScore n ≤ finScore k ↔ n ≤ k := by
  unfold finScore
  rw [WithBot.coe_le_coe, WithTop.coe_le_coe]

theorem fullMaxLoop_score (child : Board → Score) (b : Board) :
    ∀ (ms : List Move) (maxEval : Score) (best : Option Move),
      (∀ mv, best = some mv → mv.score = maxEval) →
      (fullMaxLoop child b ms maxEval best).score =
        ms.foldl (fun acc m => max acc (child (applyMove b m))) maxEval := by
  intro ms
  induction ms with
  | nil =>
    intro maxEval best hinv
    rw [fullMaxLoop_nil, List.foldl_nil]
    exact finishLoop_score hinv
  | cons mv rest ih =>
    intro maxEval best hinv
    rw [fullMaxLoop_cons, List.foldl_cons]
    by_cases hup : maxEval < child (applyMove b mv)
    · simp only [if_pos hup]
      rw [ih _ _ (fun mv' h => by cases h; rfl), max_eq_right (le_of_lt hup)]
    · simp only [if_neg hup]
      rw [ih _ _ hinv, max_eq_left (not_lt.mp hup)]

theorem fullMinLoop_score (child : Board → Score) (b : Board) :
    ∀ (ms : List Move) (minEval : Score) (best : Option Move),
      (∀ mv, best = some mv → mv.score = minEval) →
      (fullMinLoop child b ms minEval best).score =
        ms.foldl (fun acc m => min acc (child (applyMove b m))) minEval := by
  intro ms
  induction ms with
  | nil =>
    intro minEval best hinv
    rw [fullMinLoop_nil, List.foldl_nil]
    exact finishLoop_score hinv
  | cons mv rest ih =>
    intro minEval best hinv
    rw [fullMinLoop_cons, List.foldl_cons]
    by_cases hup : child (applyMove b mv) < minEval
    · simp only [if_pos hup]
      rw [ih _ _ (fun mv' h => by cases h; rfl), min_eq_right (le_of_lt hup)]
    · simp only [if_neg hup]
      rw [ih _ _ hinv, min_eq_left (not_lt.mp hup)]

theorem foldl_max_fin {β : Type} (g : β → Score) :
    ∀ (l : List β) (a : Score),
      ((∃ n, a = finScore n) ∨ (a = ⊥ ∧ l ≠ [])) →
      (∀ m ∈ l, ∃ n, g m = finScore n) →
      ∃ n, l.foldl (fun acc m => max acc (g m)) a = finScore n := by
  intro l
  induction l with
  | nil =>
    intro a ha _
    rcases ha with ⟨n, hn⟩ | ⟨_, hne⟩
    · exact ⟨n, hn⟩
    · exact absurd rfl hne
  | cons x xs ih =>
    intro a ha hg
    obtain ⟨k, hk⟩ := hg x (List.mem_cons_self x xs)
    rw [List.foldl_cons, hk]
    have hgrest : ∀ m ∈ xs, ∃ n, g m = finScore n :=
      fun m hm => hg m (List.mem_cons_of_mem x hm)
    rcases ha with ⟨n, hn⟩ | ⟨hbot, _⟩
    · subst hn
      rcases le_total n k with h | h
      · exact ih _ (Or.inl ⟨k, max_eq_right (finScore_le_finScore.mpr h)⟩) hgrest
      · exact ih _ (Or.inl ⟨n, max_eq_left (finScore_le_finScore.mpr h)⟩) hgrest
    · subst hbot
      exact ih _ (Or.inl ⟨k, max_eq_right bot_le⟩) hgrest

theorem foldl_min_fin {β : Type} (g : β → Score) :
    ∀ (l : List β) (a : Score),
      ((∃ n, a = finScore n) ∨ (a = ⊤ ∧ l ≠ [])) →
      (∀ m ∈ l, ∃ n, g m = finScore n) →
      ∃ n, l.foldl (fun acc m => min acc (g m)) a = finScore n := by
  intro l
  induction l with
  | nil =>
    intro a ha _
    rcases ha with ⟨n, hn⟩ | ⟨_, hne⟩
    · exact ⟨n, hn⟩
    · exact absurd rfl hne
  | cons x xs ih =>
    intro a ha hg
    obtain ⟨k, hk⟩ := hg x (List.mem_cons_self x xs)
    rw [List.foldl_cons, hk]
    have hgrest : ∀ m ∈ xs, ∃ n, g m = finScore n :=
      fun m hm => hg m (List.mem_cons_of_mem x hm)
    rcases ha with ⟨n, hn⟩ | ⟨htop, _⟩
    · subst hn
      rcases le_total n k with h | h
      · exact ih _ (Or.inl ⟨n, min_eq_left (finScore_le_finScore.mpr h)⟩) hgrest
      · exact ih _ (Or.inl ⟨k, min_eq_right (finScore_le_finScore.mpr h)⟩) hgrest
    · subst htop
      exact ih _ (Or.inl ⟨k, min_eq_right le_top⟩) hgrest

theorem fullMinimax_score_fin :
    ∀ (depth : Nat) (b : Board) (isMaximizing : Bool) (myColor : Side),
      ∃ n, (fullMinimax b depth isMaximizing myColor).score = finScore n := by
  intro depth
  induction depth with
  | zero => intro b isMax c; exact ⟨evaluateBoard b c, rfl⟩
  | succ d ih =>
    intro b isMax c
    simp only [fullMinimax]
    by_cases hemp : (generateLegalMoves b (if isMax then c else c.opp)).isEmpty
    · rw [if_pos hemp]
      exact ⟨if isMax then -100000 else 100000, rfl⟩
    · rw [if_neg hemp]
      have hne : generateLegalMoves b (if isMax then c else c.opp) ≠ [] := by
        intro h
        rw [h] at hemp
        exact hemp rfl
      cases isMax with
      | true =>
        rw [if_pos rfl]
        rw [fullMaxLoop_score _ b _ ⊥ none (fun _ h => by cases h)]
        exact foldl_max_fin _ _ ⊥ (Or.inr ⟨rfl, hne⟩) (fun m _ => ih _ false c)
      | false =>
        rw [if_neg (by simp)]
        rw [fullMinLoop_score _ b _ ⊤ none (fun _ h => by cases h)]
        exact foldl_min_fin _ _ ⊤ (Or.inr ⟨rfl, hne⟩) (fun m _ => ih _ true c)

theorem maxLoop_km (child : Board → Score → Score → Score) (childV : Board → Score)
    (b : Board) :
    ∀ (ms : List Move) (alpha beta maxEval : Score) (best : Option Move),
      alpha < beta →
      maxEval ≤ alpha →
      (∀ mv, best = some mv → mv.score = maxEval) →
      (∀ m ∈ ms, ∀ a' β', a' < β' →
        min β' (childV (applyMove b m)) ≤ child (applyMove b m) a' β' ∧
        child (applyMove b m) a' β' ≤ max a' (childV (applyMove b m))) →
      min beta (ms.foldl (fun acc m => max acc (childV (applyMove b m))) maxEval) ≤
          (maxLoop child b ms alpha beta maxEval best).score ∧
        (maxLoop child b ms alpha beta maxEval best).score ≤
          max alpha (ms.foldl (fun acc m => max acc (childV (applyMove b m))) maxEval) := by
  intro ms
  induction ms with
  | nil =>
    intro alpha beta maxEval best hab hma hinv hch
    rw [maxLoop_nil, List.foldl_nil, finishLoop_score hinv]
    exact ⟨min_le_right _ _, le_max_right _ _⟩
  | cons mv rest ih =>
    intro alpha beta maxEval best hab hma hinv hch
    rw [maxLoop_cons, List.foldl_cons]
    obtain ⟨hlo, hhi⟩ := hch mv (List.mem_cons_self mv rest) alpha beta hab
    have hchrest := fun m hm => hch m (List.mem_cons_of_mem mv hm)
    by_cases hbr : beta ≤ max alpha (child (applyMove b mv) alpha beta)
    · -- pruning break
      have hbev : beta ≤ child (applyMove b mv) alpha beta := by
        rcases le_max_iff.mp hbr with h | h
        · exact absurd h (not_le.mpr hab)
        · exact h
      have hev_vm : child (applyMove b mv) alpha beta ≤ childV (applyMove b mv) := by
        rcases le_max_iff.mp hhi with h | h
        · exact absurd (le_trans hbev h) (not_le.mpr hab)
        · exact h
      have hup : maxEval < child (applyMove b mv) alpha beta :=
        lt_of_le_of_lt hma (lt_of_lt_of_le hab hbev)
      simp only [if_pos hup, if_pos hbr, finishLoop_some]
      constructor
      · exact le_trans (min_le_left _ _) hbev
      · exact le_trans
          (le_trans hev_vm (le_trans (le_max_right maxEval _) (le_foldl_max _ _ _)))
          (le_max_right alpha _)
    · -- explore the next sibling
      have halpha' : max alpha (child (applyMove b mv) alpha beta) < beta := not_le.mp hbr
      by_cases hup : maxEval < child (applyMove b mv) alpha beta
      · simp only [if_pos hup, if_neg hbr]
        obtain ⟨ihlo, ihhi⟩ := ih (max alpha (child (applyMove b mv) alpha beta)) beta
          (child (applyMove b mv) alpha beta)
          (some { mv with score := child (applyMove b mv) alpha beta })
          halpha' (le_max_right _ _) (fun mv' h => by cases h; rfl) hchrest
        constructor
        · -- lower bound
          have h1 : min beta (max maxEval (childV (applyMove b mv))) ≤
              child (applyMove b mv) alpha beta := by
            rw [min_max_distrib_left]
            exact max_le (le_trans (min_le_right _ _) (le_of_lt hup)) hlo
          have h2 : min beta (max maxEval (childV (applyMove b mv))) ≤
              min beta (child (applyMove b mv) alpha beta) :=
            le_min (min_le_left _ _) h1
          calc min beta (rest.foldl (fun acc m => max acc (childV (applyMove b m)))
                (max maxEval (childV (applyMove b mv))))
              = rest.foldl (fun acc m => max acc (min beta (childV (applyMove b m))))
                (min beta (max maxEval (childV (applyMove b mv)))) :=
                min_foldl_max _ _ _ _
            _ ≤ rest.foldl (fun acc m => max acc (min beta (childV (applyMove b m))))
                (min beta (child (applyMove b mv) alpha beta)) :=
                foldl_max_mono _ _ h2
            _ = min beta (rest.foldl (fun acc m => max acc (childV (applyMove b m)))
                (child (applyMove b mv) alpha beta)) := (min_foldl_max _ _ _ _).symm
            _ ≤ _ := ihlo
        · -- upper bound
          have hvmW : childV (applyMove b mv) ≤
              rest.foldl (fun acc m => max acc (childV (applyMove b m)))
                (max maxEval (childV (applyMove b mv))) :=
            le_trans (le_max_right _ _) (le_foldl_max _ _ _)
          have hWW : rest.foldl (fun acc m => max acc (childV (applyMove b m)))
                (child (applyMove b mv) alpha beta) ≤
              max alpha (rest.foldl (fun acc m => max acc (childV (applyMove b m)))
                (max maxEval (childV (applyMove b mv)))) := by
            calc rest.foldl (fun acc m => max acc (childV (applyMove b m)))
                  (child (applyMove b mv) alpha beta)
                ≤ rest.foldl (fun acc m => max acc (childV (applyMove b m)))
                  (max alpha (max maxEval (childV (applyMove b mv)))) := by
                  refine foldl_max_mono _ _ (le_trans hhi (max_le_max le_rfl ?_))
                  exact le_max_right _ _
              _ = max alpha (rest.foldl (fun acc m => max acc (childV (applyMove b m)))
                  (max maxEval (childV (applyMove b mv)))) := foldl_max_pull _ _ _ _
          refine le_trans ihhi (max_le (max_le (le_max_left _ _) ?_) hWW)
          exact le_trans hhi (max_le_max le_rfl hvmW)
      · -- the child did not improve the running maximum
        have hev_me : child (applyMove b mv) alpha beta ≤ maxEval := not_lt.mp hup
        simp only [if_neg hup, if_neg hbr]
        obtain ⟨ihlo, ihhi⟩ := ih (max alpha (child (applyMove b mv) alpha beta)) beta
          maxEval best halpha' (le_max_iff.mpr (Or.inl hma)) hinv hchrest
        constructor
        · have h2 : min beta (max maxEval (childV (applyMove b mv))) ≤
              min beta maxEval := by
            refine le_min (min_le_left _ _) ?_
            rw [min_max_distrib_left]
            exact max_le (min_le_right _ _) (le_trans hlo hev_me)
          calc min beta (rest.foldl (fun acc m => max acc (childV (applyMove b m)))
                (max maxEval (childV (applyMove b mv))))
              = rest.foldl (fun acc m => max acc (min beta (childV (applyMove b m))))
                (min beta (max maxEval (childV (applyMove b mv)))) := min_foldl_max _ _ _ _
            _ ≤ rest.foldl (fun acc m => max acc (min beta (childV (applyMove b m))))
                (min beta maxEval) := foldl_max_mono _ _ h2
            _ = min beta (rest.foldl (fun acc m => max acc (childV (applyMove b m)))
                maxEval) := (min_foldl_max _ _ _ _).symm
            _ ≤ _ := ihlo
        · have hW : rest.foldl (fun acc m => max acc (childV (applyMove b m))) maxEval ≤
              rest.foldl (fun acc m => max acc (childV (applyMove b m)))
                (max maxEval (childV (applyMove b mv))) :=
            foldl_max_mono _ _ (le_max_left _ _)
          refine le_trans ihhi (max_le (max_le (le_max_left _ _) ?_)
            (le_trans hW (le_max_right _ _)))
          exact le_max_iff.mpr (Or.inl (le_trans hev_me hma))

theorem minLoop_km (child : Board → Score → Score → Score) (childV : Board → Score)
    (b : Board) :
    ∀ (ms : List Move) (alpha beta minEval : Score) (best : Option Move),
      alpha < beta →
      beta ≤ minEval →
      (∀ mv, best = some mv → mv.score = minEval) →
      (∀ m ∈ ms, ∀ a' β', a' < β' →
        min β' (childV (applyMove b m)) ≤ child (applyMove b m) a' β' ∧
        child (applyMove b m) a' β' ≤ max a' (childV (applyMove b m))) →
      min beta (ms.foldl (fun acc m => min acc (childV (applyMove b m))) minEval) ≤
          (minLoop child b ms alpha beta minEval best).score ∧
        (minLoop child b ms alpha beta minEval best).score ≤
          max alpha (ms.foldl (fun acc m => min acc (childV (applyMove b m))) minEval) := by
  intro ms
  induction ms with
  | nil =>
    intro alpha beta minEval best hab hbm hinv hch
    rw [minLoop_nil, List.foldl_nil, finishLoop_score hinv]
    exact ⟨min_le_right _ _, le_max_right _ _⟩
  | cons mv rest ih =>
    intro alpha beta minEval best hab hbm hinv hch
    rw [minLoop_cons, List.foldl_cons]
    obtain ⟨hlo, hhi⟩ := hch mv (List.mem_cons_self mv rest) alpha beta hab
    have hchrest := fun m hm => hch m (List.mem_cons_of_mem mv hm)
    by_cases hbr : min beta (child (applyMove b mv) alpha beta) ≤ alpha
    · -- pruning break
      have hbev : child (applyMove b mv) alpha beta ≤ alpha := by
        rcases min_le_iff.mp hbr with h | h
        · exact absurd h (not_le.mpr hab)
        · exact h
      have hvm_ev : childV (applyMove b mv) ≤ child (applyMove b mv) alpha beta := by
        rcases le_total beta (childV (applyMove b mv)) with h | h
        · rw [min_eq_left h] at hlo
          exact absurd (le_trans hlo hbev) (not_le.mpr hab)
        · rw [min_eq_right h] at hlo
          exact hlo
      have hup : child (applyMove b mv) alpha beta < minEval :=
        lt_of_le_of_lt hbev (lt_of_lt_of_le hab hbm)
      simp only [if_pos hup, if_pos hbr, finishLoop_some]
      constructor
      · exact le_trans (min_le_right _ _)
          (le_trans (foldl_min_le _ _ _) (le_trans (min_le_right _ _) hvm_ev))
      · exact le_trans hbev (le_max_left _ _)
    · -- explore the next sibling
      have halpha' : alpha < min beta (child (applyMove b mv) alpha beta) := not_le.mp hbr
      by_cases hup : child (applyMove b mv) alpha beta < minEval
      · simp only [if_pos hup, if_neg hbr]
        obtain ⟨ihlo, ihhi⟩ := ih alpha (min beta (child (applyMove b mv) alpha beta))
          (child (applyMove b mv) alpha beta)
          (some { mv with score := child (applyMove b mv) alpha beta })
          halpha' (min_le_right _ _) (fun mv' h => by cases h; rfl) hchrest
        constructor
        · have h2 : min beta (min minEval (childV (applyMove b mv))) ≤
              min (min beta (child (applyMove b mv) alpha beta))
                (child (applyMove b mv) alpha beta) := by
            have hev : min beta (min minEval (childV (applyMove b mv))) ≤
                child (applyMove b mv) alpha beta := by
              rw [min_left_comm]
              exact le_trans (min_le_right _ _) hlo
            exact le_min (le_min (min_le_left _ _) hev) hev
          calc min beta (rest.foldl (fun acc m => min acc (childV (applyMove b m)))
                (min minEval (childV (applyMove b mv))))
              = rest.foldl (fun acc m => min acc (childV (applyMove b m)))
                (min beta (min minEval (childV (applyMove b mv)))) :=
                (foldl_min_pull _ _ _ _).symm
            _ ≤ rest.foldl (fun acc m => min acc (childV (applyMove b m)))
                (min (min beta (child (applyMove b mv) alpha beta))
                  (child (applyMove b mv) alpha beta)) := foldl_min_mono _ _ h2
            _ = min (min beta (child (applyMove b mv) alpha beta))
                (rest.foldl (fun acc m => min acc (childV (applyMove b m)))
                  (child (applyMove b mv) alpha beta)) := foldl_min_pull _ _ _ _
            _ ≤ _ := ihlo
        · have h2 : max alpha (child (applyMove b mv) alpha beta) ≤
              max alpha (min minEval (childV (applyMove b mv))) := by
            refine max_le (le_max_left _ _) ?_
            rcases le_max_iff.mp hhi with h | h
            · exact le_trans h (le_max_left _ _)
            · exact le_trans (le_min (le_of_lt hup) h) (le_max_right _ _)
          calc (minLoop child b rest alpha (min beta (child (applyMove b mv) alpha beta))
                (child (applyMove b mv) alpha beta)
                (some { mv with score := child (applyMove b mv) alpha beta })).score
              ≤ max alpha (rest.foldl (fun acc m => min acc (childV (applyMove b m)))
                (child (applyMove b mv) alpha beta)) := ihhi
            _ = rest.foldl (fun acc m => min acc (max alpha (childV (applyMove b m))))
                (max alpha (child (applyMove b mv) alpha beta)) := max_foldl_min _ _ _ _
            _ ≤ rest.foldl (fun acc m => min acc (max alpha (childV (applyMove b m))))
                (max alpha (min minEval (childV (applyMove b mv)))) := foldl_min_mono _ _ h2
            _ = max alpha (rest.foldl (fun acc m => min acc (childV (applyMove b m)))
                (min minEval (childV (applyMove b mv)))) := (max_foldl_min _ _ _ _).symm
      · -- the child did not improve the running minimum
        have hev_me : minEval ≤ child (applyMove b mv) alpha beta := not_lt.mp hup
        simp only [if_neg hup, if_neg hbr]
        obtain ⟨ihlo, ihhi⟩ := ih alpha (min beta (child (applyMove b mv) alpha beta))
          minEval best halpha' (le_trans (min_le_left _ _) hbm) hinv hchrest
        constructor
        · have h2 : min beta (min minEval (childV (applyMove b mv))) ≤
              min (min beta (child (applyMove b mv) alpha beta)) minEval := by
            refine le_min (le_min (min_le_left _ _) ?_) ?_
            · rw [min_left_comm]
              exact le_trans (min_le_right _ _) hlo
            · exact le_trans (min_le_right _ _) (min_le_left _ _)
          calc min beta (rest.foldl (fun acc m => min acc (childV (applyMove b m)))
                (min minEval (childV (applyMove b mv))))
              = rest.foldl (fun acc m => min acc (childV (applyMove b m)))
                (min beta (min minEval (childV (applyMove b mv)))) :=
                (foldl_min_pull _ _ _ _).symm
            _ ≤ rest.foldl (fun acc m => min acc (childV (applyMove b m)))
                (min (min beta (child (applyMove b mv) alpha beta)) minEval) :=
                foldl_min_mono _ _ h2
            _ = min (min beta (child (applyMove b mv) alpha beta))
                (rest.foldl (fun acc m => min acc (childV (applyMove b m))) minEval) :=
                foldl_min_pull _ _ _ _
            _ ≤ _ := ihlo
        · have h2 : max alpha minEval ≤
              max alpha (min minEval (childV (applyMove b mv))) := by
            refine max_le (le_max_left _ _) ?_
            rcases le_max_iff.mp (le_trans hev_me hhi) with h | h
            · exact le_trans h (le_max_left _ _)
            · exact le_trans (le_min le_rfl h) (le_max_right _ _)
          calc (minLoop child b rest alpha (min beta (child (applyMove b mv) alpha beta))
                minEval best).score
              ≤ max alpha (rest.foldl (fun acc m => min acc (childV (applyMove b m)))
                minEval) := ihhi
            _ = rest.foldl (fun acc m => min acc (max alpha (childV (applyMove b m))))
                (max alpha minEval) := max_foldl_min _ _ _ _
            _ ≤ rest.foldl (fun acc m => min acc (max alpha (childV (applyMove b m))))
                (max alpha (min minEval (childV (applyMove b mv)))) := foldl_min_mono _ _ h2
            _ = max alpha (rest.foldl (fun acc m => min acc (childV (applyMove b m)))
                (min minEval (childV (applyMove b mv)))) := (max_foldl_min _ _ _ _).symm

theorem minimax_km :
    ∀ (d : Nat) (b : Board) (isMaximizing : Bool) (myColor : Side) (alpha beta : Score),
      alpha < beta →
      min beta (fullMinimax b d isMaximizing myColor).score ≤
          (minimax b d alpha beta isMaximizing myColor).score ∧
        (minimax b d alpha beta isMaximizing myColor).score ≤
          max alpha (fullMinimax b d isMaximizing myColor).score := by
  intro d
  induction d with
  | zero =>
    intro b isMax c alpha beta hab
    exact ⟨min_le_right _ _, le_max_right _ _⟩
  | succ d ih =>
    intro b isMax c alpha beta hab
    simp only [minimax, fullMinimax]
    by_cases hemp : (generateLegalMoves b (if isMax then c else c.opp)).isEmpty
    · rw [if_pos hemp, if_pos hemp]
      exact ⟨min_le_right _ _, le_max_right _ _⟩
    · rw [if_neg hemp, if_neg hemp]
      cases isMax with
      | true =>
        rw [if_pos rfl, if_pos rfl]
        rw [fullMaxLoop_score _ b _ ⊥ none (fun _ h => by cases h)]
        exact maxLoop_km (fun b' a β => (minimax b' d a β false c).score)
          (fun b' => (fullMinimax b' d false c).score) b _ alpha beta ⊥ none hab bot_le
          (fun _ h => by cases h)
          (fun m _ a' β' ha' => ih (applyMove b m) false c a' β' ha')
      | false =>
        rw [if_neg (by simp), if_neg (by simp)]
        rw [fullMinLoop_score _ b _ ⊤ none (fun _ h => by cases h)]
        exact minLoop_km (fun b' a β => (minimax b' d a β true c).score)
          (fun b' => (fullMinimax b' d true c).score) b _ alpha beta ⊤ none hab le_top
          (fun _ h => by cases h)
          (fun m _ a' β' ha' => ih (applyMove b m) true c a' β' ha')

theorem maxLoop_full_eq (child : Board → Score → Score → Score) (childV : Board → Score)
    (b : Board) :
    ∀ (ms : List Move) (maxEval : Score) (best : Option Move),
      maxEval ≠ ⊤ →
      (∀ m ∈ ms, ∀ a', a' < ⊤ →
        min ⊤ (childV (applyMove b m)) ≤ child (applyMove b m) a' ⊤ ∧
        child (applyMove b m) a' ⊤ ≤ max a' (childV (applyMove b m))) →
      (∀ m ∈ ms, ∃ n, childV (applyMove b m) = finScore n) →
      maxLoop child b ms maxEval ⊤ maxEval best = fullMaxLoop childV b ms maxEval best := by
  intro ms
  induction ms with
  | nil => intro maxEval best _ _ _; rfl
  | cons mv rest ih =>
    intro maxEval best hMe hch hfin
    obtain ⟨hlo, hhi⟩ := hch mv (List.mem_cons_self mv rest) maxEval
      (lt_top_iff_ne_top.mpr hMe)
    rw [min_eq_right le_top] at hlo
    obtain ⟨k, hk⟩ := hfin mv (List.mem_cons_self mv rest)
    have hchrest := fun m hm => hch m (List.mem_cons_of_mem mv hm)
    have hfinrest := fun m hm => hfin m (List.mem_cons_of_mem mv hm)
    rw [maxLoop_cons, fullMaxLoop_cons]
    by_cases hup : maxEval < childV (applyMove b mv)
    · have hev : child (applyMove b mv) maxEval ⊤ = childV (applyMove b mv) := by
        refine le_antisymm ?_ hlo
        rw [max_eq_right (le_of_lt hup)] at hhi
        exact hhi
      have hup' : maxEval < child (applyMove b mv) maxEval ⊤ := by rw [hev]; exact hup
      simp only [if_pos hup, if_pos hup', hev]
      have hbr : ¬(⊤ : Score) ≤ max maxEval (childV (applyMove b mv)) := by
        intro h
        have htop := top_le_iff.mp h
        rcases max_choice maxEval (childV (applyMove b mv)) with hc | hc <;> rw [hc] at htop
        · exact hMe htop
        · exact finScore_ne_top k (hk ▸ htop)
      simp only [if_neg hbr]
      rw [max_eq_right (le_of_lt hup)]
      exact ih (childV (applyMove b mv)) _ (by rw [hk]; exact finScore_ne_top k)
        hchrest hfinrest
    · have hev_le : child (applyMove b mv) maxEval ⊤ ≤ maxEval := by
        rw [max_eq_left (not_lt.mp hup)] at hhi
        exact hhi
      have hup' : ¬maxEval < child (applyMove b mv) maxEval ⊤ := not_lt.mpr hev_le
      simp only [if_neg hup, if_neg hup']
      have hbr : ¬(⊤ : Score) ≤ max maxEval (child (applyMove b mv) maxEval ⊤) := by
        rw [max_eq_left hev_le]
        intro h
        exact hMe (top_le_iff.mp h)
      simp only [if_neg hbr]
      rw [max_eq_left hev_le]
      exact ih maxEval best hMe hchrest hfinrest

/-- C3: for every position and fixed depth, the alpha-beta search launched
with the full window returns exactly the same move and score as the unpruned
full minimax over the identical move ordering. -/
theorem alphaBeta_equals_fullMinimax (b : Board) (myColor : Side) (depth : Nat) :
    minimax b depth ⊥ ⊤ true myColor = fullMinimax b depth true myColor := by
  cases depth with
  | zero => rfl
  | succ d =>
    simp only [minimax, fullMinimax, if_true]
    by_cases hemp : (generateLegalMoves b myColor).isEmpty
    · rw [if_pos hemp, if_pos hemp]
    · rw [if_neg hemp, if_neg hemp]
      exact maxLoop_full_eq (fun b' a β => (minimax b' d a β false myColor).score)
        (fun b' => (fullMinimax b' d false myColor).score) b _ ⊥ none bot_ne_top
        (fun m _ a' ha' => minimax_km d (applyMove b m) false myColor a' ⊤ ha')
        (fun m _ => fullMinimax_score_fin d _ false myColor)

end Xiangqi
